import Mathlib

/-!
Verification development for `ran.py`, a VOX chart-lane randomizer.

The Python source is shallowly embedded: each Python function becomes a
Lean definition over `List Char` lines (Python strings).  Python loops
become structural recursion; Python exceptions (`IndexError`, `KeyError`,
`ValueError`) become an `Except PyErr` result.  Spec-level descriptions
(used for refinement statements) are clearly marked as such.
-/

set_option maxRecDepth 100000

/-- A Python string / one line of the chart file, as a list of characters. -/
abbrev Line := List Char

/-- The Python exceptions the embedded code can raise. -/
inductive PyErr where
  | indexError
  | keyError
  | valueError
deriving DecidableEq

/-- Equality of embedded results is decidable (used to evaluate the
embeddings at concrete inputs). -/
instance {ε α : Type} [DecidableEq ε] [DecidableEq α] : DecidableEq (Except ε α) :=
  fun x y =>
    match x, y with
    | .error e, .error f =>
      if h : e = f then .isTrue (congrArg Except.error h)
      else .isFalse fun hc => h (Except.error.inj hc)
    | .error _, .ok _ => .isFalse Except.noConfusion
    | .ok _, .error _ => .isFalse Except.noConfusion
    | .ok a, .ok b =>
      if h : a = b then .isTrue (congrArg Except.ok h)
      else .isFalse fun hc => h (Except.ok.inj hc)

/-- Characters removed by Python `str.strip()` (default whitespace). -/
def pyIsSpace (c : Char) : Bool :=
  c = ' ' || c = '\t' || c = '\n' || c = '\x0d' || c = '\x0b' || c = '\x0c'

/-- Model of Python `str.strip()`: drop whitespace from both ends. -/
def pyStrip (s : Line) : Line :=
  ((s.dropWhile pyIsSpace).reverse.dropWhile pyIsSpace).reverse

/-- Model of iterating a Python text file (or `readlines()`): the file's
character content split into lines, each keeping its trailing newline
(the final line may lack one).  An empty file yields no lines. -/
def pySplitLinesAux : List Char → List Char → List (List Char)
  | [], acc => if acc.isEmpty then [] else [acc.reverse]
  | c :: rest, acc =>
    if c = '\n' then (acc.reverse ++ ['\n']) :: pySplitLinesAux rest []
    else pySplitLinesAux rest (c :: acc)

/-- Split file content into physical lines, Python-style. -/
def pySplitLines (s : List Char) : List (List Char) := pySplitLinesAux s []

/-- Decimal value of a nonempty all-digit character list, else `none`. -/
def digitsVal (l : List Char) : Option Nat :=
  if l.isEmpty then none
  else l.foldl
    (fun acc c => acc.bind fun a => if c.isDigit then some (10 * a + (c.toNat - 48)) else none)
    (some 0)

/-- Model of Python `int(s)` on the forms relevant here: optional
whitespace, an optional single sign, then decimal digits.  (Pythonic
underscore separators are not modelled; no input in this development
uses them.)  `none` models the `ValueError` that `int` raises. -/
def pyInt (s : Line) : Option Int :=
  match pyStrip s with
  | '+' :: rest => (digitsVal rest).map (fun n => (n : Int))
  | '-' :: rest => (digitsVal rest).map (fun n => -(n : Int))
  | t => (digitsVal t).map (fun n => (n : Int))

/-- Model of a Python `f"{n:0w}"` format: the decimal representation of
`n`, left-padded with zeros to a minimum width `w`. -/
def pyFormat (w n : Nat) : String :=
  String.mk (List.replicate (w - (toString n).length) '0' ++ (toString n).data)

/-- `f"{measure:03},{beat:02},{tick:02}"` from `generate_timestamps`. -/
def fmtTimestamp (m b t : Nat) : String :=
  pyFormat 3 m ++ "," ++ pyFormat 2 b ++ "," ++ pyFormat 2 t

/-- Lexicographic strict order on position triples (Python tuple `<`). -/
def posLt (p q : Nat × Nat × Nat) : Prop :=
  p.1 < q.1 ∨ (p.1 = q.1 ∧ (p.2.1 < q.2.1 ∨ (p.2.1 = q.2.1 ∧ p.2.2 < q.2.2)))

instance (p q : Nat × Nat × Nat) : Decidable (posLt p q) := by
  unfold posLt; infer_instance

/-- Python `(measure, beat, tick) > end_position` (tuple comparison). -/
def posGtB (p q : Nat × Nat × Nat) : Bool :=
  decide (posLt q p)

/-- The digit characters accepted by the `line[6] in "12345678"` test. -/
def trackDigits : Line := "12345678".data

/-- `"TRACK" + c`, the dictionary key for track digit `c`. -/
def trackKey (c : Char) : Line := "TRACK".data ++ [c]

/-- The full header line `"#TRACK" + c`. -/
def headerLine (c : Char) : Line := '#' :: trackKey c

/-- A track-content mapping: a Python dict from track name to its list of
lines, modelled as an insertion-ordered association list. -/
abbrev TrackMap := List (Line × List Line)

/-- Dictionary lookup `tm[k]`; `none` models a `KeyError`. -/
def tmLookup (tm : TrackMap) (k : Line) : Option (List Line) :=
  (tm.find? fun p => decide (p.1 = k)).map Prod.snd

/-- `tm[k].append(v)` for a key already present (callers check first). -/
def tmAppend (tm : TrackMap) (k : Line) (v : Line) : TrackMap :=
  tm.map fun p => if p.1 = k then (p.1, p.2 ++ [v]) else p

/-- The keys of a track map, in insertion order. -/
def tmKeys (tm : TrackMap) : List Line := tm.map Prod.fst

/-- `{f"TRACK{num}": [] for num in range(1, 9)}` from `parse_file`. -/
def initTracks : TrackMap := trackDigits.map fun c => (trackKey c, [])

/-- How `parse_file` / `write_to_file` classify one (stripped) line via
`line.startswith("#TRACK") and line[6] in "12345678"`.  `line[6]` on a
too-short line raises `IndexError`. -/
inductive LineKind where
  | header (key : Line)
  | plain
deriving DecidableEq

/-- Classify a line; `.error .indexError` models `line[6]` on a line of
length `< 7` that starts with `"#TRACK"`. -/
def lineClass (line : Line) : Except PyErr LineKind :=
  if "#TRACK".data.isPrefixOf line then
    match line.get? 6 with
    | none => .error .indexError
    | some c =>
      if trackDigits.contains c then .ok (.header (line.drop 1)) else .ok .plain
  else .ok .plain

/-- The loop of `parse_file`: `tracks` is the dict built so far, `cur`
the current track (Python `current_track`, `none` for Python `None`).
Each line is already stripped (see `parse_file`). -/
def parse_go (tracks : TrackMap) (cur : Option Line) : List Line → Except PyErr TrackMap
  | [] => .ok tracks
  | line :: rest =>
    match lineClass line with
    | .error e => .error e
    | .ok (.header k) => parse_go tracks (some k) rest
    | .ok .plain =>
      if "#END".data.isPrefixOf line then parse_go tracks none rest
      else
        match cur with
        | none => parse_go tracks none rest
        | some t =>
          match tmLookup tracks t with
          | none => .error .keyError
          | some _ => parse_go (tmAppend tracks t line) (some t) rest

/-- `parse_file`: strip every raw line (Python strips inside the loop,
which is the same as stripping first) and run the parsing loop. -/
def parse_file (rawLines : List Line) : Except PyErr TrackMap :=
  parse_go initTracks none (rawLines.map pyStrip)

/-- The loop of `write_to_file`.  Lines arrive pre-stripped
(`full_content` in `main` is `[line.strip() for line in file]`); the
result is the list of lines written (each is then emitted with `'\n'`). -/
def write_go (td : TrackMap) : Bool → List Line → Except PyErr (List Line)
  | _, [] => .ok []
  | inTrack, line :: rest =>
    match lineClass line with
    | .error e => .error e
    | .ok (.header k) =>
      match tmLookup td k with
      | none => .error .keyError
      | some buf => (write_go td true rest).map fun out => line :: (buf ++ out)
    | .ok .plain =>
      if "#END".data.isPrefixOf line && inTrack then
        (write_go td false rest).map fun out => line :: out
      else if !inTrack then
        (write_go td inTrack rest).map fun out => line :: out
      else
        write_go td inTrack rest

/-- The bytes `write_to_file` produces from file content `F` when handed
the unmodified mapping `parse_file` produced from that same content
(the identity round trip of `main`): every written line gets `'\n'`. -/
def writeIdentityBytes (F : List Char) : Except PyErr (List Char) :=
  match parse_file (pySplitLines F) with
  | .error e => .error e
  | .ok td =>
    (write_go td false ((pySplitLines F).map pyStrip)).map fun out =>
      (out.map fun l => l ++ ['\n']).flatten

/-- A classified note event (`parse_notes_in_tracks`): the first
tab-field as position text and `chip`/`hold` from the second field. -/
structure NoteEvent where
  timestamp : Line
  isChip : Bool
deriving DecidableEq

/-- The inner loop of `parse_notes_in_tracks` over one track's lines:
`note_info = note_line.split('\t')`; lines with fewer than 3 fields are
skipped; `timestamp, note_type, _ = note_info` unpacks *exactly* three
values, so a line with more than 3 fields raises `ValueError`. -/
def parse_notes_lines : List Line → Except PyErr (List NoteEvent)
  | [] => .ok []
  | line :: rest =>
    let fields := line.splitOn '\t'
    if fields.length ≥ 3 then
      match fields with
      | [ts, ty, _] =>
        (parse_notes_lines rest).map fun evs =>
          { timestamp := ts, isChip := decide (ty = "0".data) } :: evs
      | _ => .error .valueError
    else parse_notes_lines rest

/-- `measure, beat, tick = map(int, next_line.split(',')[0:3])` from
`get_end_position`: both a short split and a non-integer field raise
`ValueError`. -/
def parseEndLine (nl : Line) : Except PyErr (Int × Int × Int) :=
  match (nl.splitOn ',').take 3 with
  | [a, b, c] =>
    match pyInt a, pyInt b, pyInt c with
    | some m, some bt, some tk => .ok (m, bt, tk)
    | _, _, _ => .error .valueError
  | _ => .error .valueError

/-- `get_end_position`, over the file's raw lines.  `.ok none` models the
Python `None` returns (marker absent, or marker the last line); when a
marker's following line starts with `"#END"` the Python `continue`
resumes the scan at that following line. -/
def get_end_position : List Line → Except PyErr (Option (Int × Int × Int))
  | [] => .ok none
  | rawLine :: rest =>
    if "#END POSITION".data.isPrefixOf (pyStrip rawLine) then
      match rest with
      | [] => .ok none
      | next :: _ =>
        if "#END".data.isPrefixOf (pyStrip next) then get_end_position rest
        else (parseEndLine (pyStrip next)).map some
    else get_end_position rest

/-- Spec-level description of `get_end_position` (for the amended claim):
scanning consecutive line pairs in order, the first pair whose first
component is a `"#END POSITION"` marker and whose second does not start
with `"#END"` determines the result (its second component is parsed);
if no such pair exists the result is `None`. -/
def endSpec (lines : List Line) : Except PyErr (Option (Int × Int × Int)) :=
  match (lines.zip lines.tail).find? fun p =>
      "#END POSITION".data.isPrefixOf (pyStrip p.1) &&
      !("#END".data.isPrefixOf (pyStrip p.2)) with
  | none => .ok none
  | some p => (parseEndLine (pyStrip p.2)).map some

/-- A beat-info entry as `parse_beat_info` builds it. -/
structure BeatInfoEntry where
  measure : Nat
  beat : Nat
  tick : Nat
  beats_per_measure : Nat
  ticks_per_beat : Nat
deriving DecidableEq, Inhabited

/-- The body of the `while` loop advancing `current_beat_info_index`,
with explicit fuel (the loop advances at most `bi.length - 1 - idx`
times, so `advanceIdx` below passes exactly that much fuel). -/
def advanceIdxGo (bi : List BeatInfoEntry) (measure : Nat) : Nat → Nat → Nat
  | idx, 0 => idx
  | idx, fuel + 1 =>
    if idx < bi.length - 1 ∧ (bi.getD (idx + 1) default).measure ≤ measure then
      advanceIdxGo bi measure (idx + 1) fuel
    else idx

/-- The `while` loop advancing `current_beat_info_index` in
`generate_timestamps`: advance while there is a next entry and its
measure has been reached or passed. -/
def advanceIdx (bi : List BeatInfoEntry) (measure : Nat) (idx : Nat) : Nat :=
  advanceIdxGo bi measure idx (bi.length - 1 - idx)

/-- The `for tick in range(0, ticks_per_beat)` loop (48 iterations):
stops with flag `true` (the Python `return`) at the first position
exceeding `end_position`, else emits the formatted timestamp. -/
def tickLoop (m b : Nat) (e : Nat × Nat × Nat) : List Nat → List String × Bool
  | [] => ([], false)
  | t :: ts =>
    if posGtB (m, b, t) e then ([], true)
    else
      let r := tickLoop m b e ts
      (fmtTimestamp m b t :: r.1, r.2)

/-- The `for beat in range(1, beats_per_measure + 1)` loop. -/
def beatLoop (m : Nat) (e : Nat × Nat × Nat) : List Nat → List String × Bool
  | [] => ([], false)
  | b :: bs =>
    match tickLoop m b e (List.range 48) with
    | (r, true) => (r, true)
    | (r, false) =>
      let r2 := beatLoop m e bs
      (r ++ r2.1, r2.2)

/-- The `for measure in range(1, end_position[0] + 1)` loop, threading
the running `current_beat_info_index`. -/
def measureLoop (bi : List BeatInfoEntry) (e : Nat × Nat × Nat) (idx : Nat) :
    List Nat → List String
  | [] => []
  | m :: ms =>
    let idx2 := advanceIdx bi m idx
    let bpm := (bi.getD idx2 default).beats_per_measure
    match beatLoop m e (List.range' 1 bpm) with
    | (r, true) => r
    | (r, false) => r ++ measureLoop bi e idx2 ms

/-- `generate_timestamps(beat_info, end_position)`.  (On an empty
`beat_info` the Python code raises `IndexError` for any measure; the
embedding is only used, and only claimed, for nonempty `beat_info`.) -/
def generate_timestamps (bi : List BeatInfoEntry) (e : Nat × Nat × Nat) : List String :=
  measureLoop bi e 0 (List.range' 1 e.1)

/-- Spec-level: the beats-per-measure of the segment active at measure
`m`, recomputed from the start (index advanced from 0 for `m` itself). -/
def activeBpm (bi : List BeatInfoEntry) (m : Nat) : Nat :=
  (bi.getD (advanceIdx bi m 0) default).beats_per_measure

/-- Spec-level: the full iteration grid for measures `1..e.1`, beats
`1..activeBpm`, ticks `0..47`, in iteration order. -/
def gridPositions (bi : List BeatInfoEntry) (e : Nat × Nat × Nat) :
    List (Nat × Nat × Nat) :=
  (List.range' 1 e.1).flatMap fun m =>
    (List.range' 1 (activeBpm bi m)).flatMap fun b =>
      (List.range 48).map fun t => (m, b, t)

/-- Spec-level rendering of claim C3: all grid positions up to and
including the terminal position, formatted; a fixed 48 ticks per beat;
no `ticks_per_beat` field consulted. -/
def timestampsSpec (bi : List BeatInfoEntry) (e : Nat × Nat × Nat) : List String :=
  ((gridPositions bi e).filter fun p => !posGtB p e).map fun p =>
    fmtTimestamp p.1 p.2.1 p.2.2

/-- Every way of picking one element of a list together with the
remaining elements, in position order. -/
def pickEach {α : Type} : List α → List (α × List α)
  | [] => []
  | x :: xs => (x, xs) :: (pickEach xs).map fun p => (p.1, x :: p.2)

/-- All permutations of a list, in the index-lexicographic order that
`itertools.permutations` produces, by recursion over the length. -/
def permsOf {α : Type} : Nat → List α → List (List α)
  | 0, _ => [[]]
  | n + 1, l => (pickEach l).flatMap fun p => (permsOf n p.2).map fun q => p.1 :: q

/-- `generate_all_combinations(elements)`:
`list(itertools.permutations(elements))`. -/
def generate_all_combinations {α : Type} (l : List α) : List (List α) :=
  permsOf l.length l

/-- `generate_all_combinations(['a', 'b', 'c', 'd'])` from `main`. -/
def all_button_combinations : List (List Char) :=
  generate_all_combinations ['a', 'b', 'c', 'd']

/-- `generate_all_combinations(['L', 'R'])` from `main`. -/
def all_fx_combinations : List (List Char) :=
  generate_all_combinations ['L', 'R']

/-- The `specific_order` lists built by the nested loops of `main`:
each button ordering followed by each effect ordering. -/
def specificOrders : List (List Char) :=
  all_button_combinations.flatMap fun bc =>
    all_fx_combinations.map fun fc => bc ++ fc

/-- The six-letter file-name suffixes `''.join(specific_order)`. -/
def variantSuffixes : List String :=
  specificOrders.map fun o => String.mk o

set_option linter.unusedVariables false in
/-- `main` parses the `-s`/`--s-random` flag into `s_random` but never
reads it again: the generation loop below that assignment is the same
for both flag values.  This embedding of the generation section
therefore takes the flag and, like the source, ignores it. -/
def mainOrders (s_random : Bool) : List (List Char) :=
  specificOrders

/-- `track_identifiers_inverse` from `main` (a dict; only the six lane
letters are ever looked up). -/
def track_identifiers_inverse (c : Char) : Line :=
  if c = 'a' then "TRACK3".data
  else if c = 'b' then "TRACK4".data
  else if c = 'c' then "TRACK5".data
  else if c = 'd' then "TRACK6".data
  else if c = 'L' then "TRACK2".data
  else "TRACK7".data

/-- The physical-track keys `['TRACK3','TRACK4','TRACK5','TRACK6','TRACK2','TRACK7']`
zipped against the reordered source keys in `main`. -/
def newPhysicalKeys : List Line :=
  ["TRACK3".data, "TRACK4".data, "TRACK5".data, "TRACK6".data,
   "TRACK2".data, "TRACK7".data]

/-- The playable physical tracks 2..7 in numeric order. -/
def playableKeys : List Line :=
  ["TRACK2".data, "TRACK3".data, "TRACK4".data, "TRACK5".data,
   "TRACK6".data, "TRACK7".data]

/-- `new_track_data` as built in `main`'s loop: zip the original keys
(`TRACK1`, `TRACK8`, then the assignment's source tracks) with the new
keys (`TRACK1`, `TRACK8`, then tracks 3,4,5,6,2,7) and map each new key
to the original buffer.  `td` is the original dict, as a function. -/
def new_track_data (td : Line → List Line) (order : List Char) : TrackMap :=
  ((["TRACK1".data, "TRACK8".data] ++ order.map track_identifiers_inverse).zip
    (["TRACK1".data, "TRACK8".data] ++ newPhysicalKeys)).map
    fun p => (p.2, td p.1)

/-- Dictionary access into `new_track_data` (total, for stating claims;
all keys used in the claims are present). -/
def ntdGet (tm : TrackMap) (k : Line) : List Line :=
  (tmLookup tm k).getD []

/-- A line that opens a track section: starts with `"#TRACK"` and has a
track digit at index 6 (total Boolean version of the header test; the
partial Python test is `lineClass`). -/
def isDigitHeaderB (l : Line) : Bool :=
  "#TRACK".data.isPrefixOf l &&
    (match l.get? 6 with
     | some c => trackDigits.contains c
     | none => false)

/-- A line at which a track section's content stops: a `"#END"`-prefixed
line or a new digit header. -/
def isBoundaryB (l : Line) : Bool :=
  "#END".data.isPrefixOf l || isDigitHeaderB l

/-- The precondition under which the `line[6]` test of `parse_file` and
`write_to_file` is safe (claim C9): every `"#TRACK"`-prefixed line has a
character at index 6, and if that character is a track digit the line is
exactly the seven-character header `"#TRACKn"`. -/
def BenignLine (l : Line) : Prop :=
  "#TRACK".data.isPrefixOf l = true →
    (l.get? 6).isSome = true ∧
      (∀ c, l.get? 6 = some c → trackDigits.contains c = true → l.length = 7)

instance (l : Line) : Decidable (BenignLine l) := by
  unfold BenignLine; infer_instance

/-- Each digit header occurs at most once in the line list (needed for
the round trip: a repeated `#TRACKn` header would make `write_to_file`
emit track `n`'s accumulated buffer twice). -/
def UniqueHeaders (lines : List Line) : Prop :=
  ∀ c ∈ trackDigits, lines.count (headerLine c) ≤ 1

instance (lines : List Line) : Decidable (UniqueHeaders lines) := by
  unfold UniqueHeaders; infer_instance

/-- Track digits of the six playable lanes. -/
def playableDigits : Line := "234567".data

/-- Does this digit header open a playable (permuted) section? -/
def playableHeaderB (l : Line) : Bool :=
  isDigitHeaderB l &&
    (match l.get? 6 with
     | some c => playableDigits.contains c
     | none => false)

/-- Spec-level (claim C4): the next erase state after one line.  A digit
header starts dropping exactly when it opens a playable section; any
`"#END"`-prefixed line stops dropping; other lines keep the state. -/
def eraseStep (s : Bool) (l : Line) : Bool :=
  if isDigitHeaderB l then playableHeaderB l
  else if "#END".data.isPrefixOf l then false
  else s

/-- Spec-level (claim C4): is this line kept by the erasure?  Headers and
`"#END"` lines are always kept; other lines are kept unless dropping. -/
def eraseKeep (s : Bool) (l : Line) : Bool :=
  if isDigitHeaderB l then true
  else if "#END".data.isPrefixOf l then true
  else !s

/-- Spec-level (claim C4): erase the content of every playable track
section, keeping everything else (headers, `"#END"` lines, lines outside
sections, and the content of the `TRACK1`/`TRACK8` sections).  Two line
lists with equal erasures agree everywhere outside the six permuted
playable sections. -/
def eraseGo (s : Bool) : List Line → List Line
  | [] => []
  | l :: rest => (if eraseKeep s l then [l] else []) ++ eraseGo (eraseStep s l) rest

/-- The erase state after a whole list of lines. -/
def eraseState (s : Bool) : List Line → Bool
  | [] => s
  | l :: rest => eraseState (eraseStep s l) rest

/-- The track dictionary has all eight standard keys present. -/
def StandardKeys (tm : TrackMap) : Prop :=
  ∀ c ∈ trackDigits, (tmLookup tm (trackKey c)).isSome = true

instance (tm : TrackMap) : Decidable (StandardKeys tm) := by
  unfold StandardKeys; infer_instance

/-- Append a whole list of content lines to one key (iterated
`tracks[t].append(line)`). -/
def tmAppendAll (tm : TrackMap) (k : Line) : List Line → TrackMap
  | [] => tm
  | x :: xs => tmAppendAll (tmAppend tm k x) k xs

/-- Concrete three-line chart body used to instantiate the round-trip
theorem: one playable section with a single content line. -/
def c4Lines : List Line := ["#TRACK2".data, "x".data, "#END".data]

/-- The track map `parse_go` produces from `c4Lines`. -/
def c4T : TrackMap :=
  [("TRACK1".data, []), ("TRACK2".data, ["x".data]), ("TRACK3".data, []),
   ("TRACK4".data, []), ("TRACK5".data, []), ("TRACK6".data, []),
   ("TRACK7".data, []), ("TRACK8".data, [])]

/-- `c4T` with the contents of TRACK2 and TRACK7 exchanged (an effect-lane
swap, one of the 48 variants `main` generates). -/
def c4Td2 : TrackMap :=
  [("TRACK1".data, []), ("TRACK2".data, []), ("TRACK3".data, []),
   ("TRACK4".data, []), ("TRACK5".data, []), ("TRACK6".data, []),
   ("TRACK7".data, ["x".data]), ("TRACK8".data, [])]

/-! ### Helper lemmas: permutation enumeration -/

lemma pickEach_mem {α : Type} (x : α) :
    ∀ (l1 l2 : List α), (x, l1 ++ l2) ∈ pickEach (l1 ++ x :: l2) := by
  intro l1
  induction l1 with
  | nil => intro l2; simp [pickEach]
  | cons a l1 ih =>
    intro l2
    simp only [List.cons_append, pickEach, List.mem_cons]
    right
    exact List.mem_map.mpr ⟨(x, l1 ++ l2), ih l2, rfl⟩

lemma mem_permsOf {α : Type} :
    ∀ (p l : List α), p.Perm l → p ∈ permsOf l.length l := by
  intro p
  induction p with
  | nil =>
    intro l h
    have : l = [] := h.symm.eq_nil
    subst this
    simp [permsOf]
  | cons x p2 ih =>
    intro l h
    have hx : x ∈ l := h.subset (List.mem_cons_self x p2)
    obtain ⟨l1, l2, rfl⟩ := List.append_of_mem hx
    have h2 : p2.Perm (l1 ++ l2) := (h.trans List.perm_middle).cons_inv
    have hlen : (l1 ++ x :: l2).length = (l1 ++ l2).length + 1 := by
      simp [List.length_append]; omega
    rw [hlen]
    simp only [permsOf, List.mem_flatMap]
    refine ⟨(x, l1 ++ l2), pickEach_mem x l1 l2, ?_⟩
    exact List.mem_map.mpr ⟨p2, ih (l1 ++ l2) h2, rfl⟩

/-- Claim C2: exhaustive mode enumerates exactly 48 lane assignments,
deterministically; the 48 six-letter suffixes are pairwise distinct,
each consisting of a permutation of `a,b,c,d` followed by a permutation
of `L,R`; and every such combination occurs. -/
theorem c2_exhaustive_enumeration :
    specificOrders.length = 48 ∧
    variantSuffixes.Nodup ∧
    (∀ o ∈ specificOrders,
      (o.take 4).Perm ['a', 'b', 'c', 'd'] ∧ (o.drop 4).Perm ['L', 'R']) ∧
    (∀ p q : List Char, p.Perm ['a', 'b', 'c', 'd'] → q.Perm ['L', 'R'] →
      (p ++ q) ∈ specificOrders) := by
  refine ⟨by decide, by decide, by decide, ?_⟩
  intro p q hp hq
  have hp2 : p ∈ all_button_combinations := mem_permsOf p ['a', 'b', 'c', 'd'] hp
  have hq2 : q ∈ all_fx_combinations := mem_permsOf q ['L', 'R'] hq
  exact List.mem_flatMap.mpr ⟨p, hp2, List.mem_map.mpr ⟨q, hq2, rfl⟩⟩

/-- Witness for C2: one concrete valid combination is generated. -/
theorem c2_exhaustive_enumeration_witness :
    (['b', 'a', 'c', 'd'] ++ ['R', 'L']) ∈ specificOrders :=
  c2_exhaustive_enumeration.2.2.2 ['b', 'a', 'c', 'd'] ['R', 'L']
    (by decide) (by decide)

/-- Claim C5 (code bug evidence): the generation section of `main`
ignores the `-s` flag entirely — with the flag set it still produces the
full exhaustive list of 48 orders, identical to the run without it, and
never a single random variant. -/
theorem c5_flag_ignored :
    mainOrders true = mainOrders false ∧ (mainOrders true).length = 48 :=
  ⟨rfl, by decide⟩

/-- Claim C7 (code bug evidence): a playable-track line with more than 3
tab-separated fields makes `parse_notes_in_tracks` raise `ValueError`
(the `timestamp, note_type, _ = note_info` unpacking expects exactly 3),
instead of producing one event with the extra fields unused; with
exactly 3 fields one event is produced (`Chip` iff the second field is
`"0"`); with fewer than 3 the line is silently dropped. -/
theorem c7_extra_fields_value_error :
    parse_notes_lines ["001,01,00\t0\t0\t0".data] = .error .valueError ∧
    parse_notes_lines ["001,01,00\t0\t0".data] =
      .ok [{ timestamp := "001,01,00".data, isChip := true }] ∧
    parse_notes_lines ["001,01,00\t1\t0".data] =
      .ok [{ timestamp := "001,01,00".data, isChip := false }] ∧
    parse_notes_lines ["001,01,00\t0".data] = .ok [] := by
  decide

/-- Claim C6, amended part: `get_end_position` is determined by the
first marker occurrence whose following line does not start with
`"#END"`; marker occurrences followed by an `"#END"`-prefixed line are
skipped and the scan resumes looking for a later marker. -/
theorem c6_end_position_characterization :
    ∀ lines, get_end_position lines = endSpec lines := by
  intro lines
  induction lines with
  | nil => rfl
  | cons l rest ih =>
    cases rest with
    | nil =>
      by_cases h : "#END POSITION".data.isPrefixOf (pyStrip l) = true <;>
        simp [get_end_position, endSpec, h, List.zip_nil_right]
    | cons b rest2 =>
      unfold get_end_position endSpec
      by_cases h : "#END POSITION".data.isPrefixOf (pyStrip l) = true
      · by_cases h2 : "#END".data.isPrefixOf (pyStrip b) = true
        · simp only [h, h2, if_true, if_false, List.tail_cons, List.zip_cons_cons,
            List.find?, Bool.and_eq_true, Bool.not_eq_true]
          simp [h, h2, ih]
          unfold endSpec
          rfl
        · simp [h, h2, List.find?]
      · simp only [h, List.tail_cons, List.zip_cons_cons, List.find?]
        simp [h, ih]
        unfold endSpec
        rfl

/-- Claim C6, counterexample to the original wording: here the marker is
present, is not the last line, and the following non-`"#END"` line
parses as `(3,1,0)`, yet the function returns `None` (the `continue`
resumes the marker scan instead of reading the next non-`"#END"` line). -/
theorem c6_end_position_counterexample :
    get_end_position
      ["#END POSITION".data, "#END".data, "003,01,00".data] = .ok none ∧
    parseEndLine (pyStrip "003,01,00".data) = .ok (3, 1, 0) := by
  decide

/-! ### Helper lemmas: line classification -/

lemma end_prefix_not_track {l : Line} (h : "#END".data.isPrefixOf l = true) :
    "#TRACK".data.isPrefixOf l = false := by
  match l with
  | [] => simp [List.isPrefixOf] at h
  | [_] => simp [List.isPrefixOf] at h
  | c1 :: c2 :: rest =>
    have hd : ("#END".data : List Char) = '#' :: 'E' :: 'N' :: 'D' :: [] := rfl
    have hd2 : ("#TRACK".data : List Char) = '#' :: 'T' :: 'R' :: 'A' :: 'C' :: 'K' :: [] := rfl
    rw [hd] at h
    rw [hd2]
    simp only [List.isPrefixOf, Bool.and_eq_true, beq_iff_eq] at h
    obtain ⟨h1, h2, _⟩ := h
    subst h1
    subst h2
    simp [List.isPrefixOf]

lemma end_prefix_lineClass {l : Line} (h : "#END".data.isPrefixOf l = true) :
    lineClass l = .ok .plain := by
  simp [lineClass, end_prefix_not_track h]

/-- Claim C10: any `"#END"`-prefixed line — in particular the full
`"#END POSITION"` marker line — closes an open track section in both
`parse_file` (leaving every buffer untouched at that step) and
`write_to_file` (where the line itself is emitted); afterwards
non-header lines are streamed verbatim. -/
theorem c10_end_closes_section :
    (∀ (acc : TrackMap) (k : Line) (rest : List Line) (l : Line),
        "#END".data.isPrefixOf l = true →
        parse_go acc (some k) (l :: rest) = parse_go acc none rest) ∧
    (∀ (acc : TrackMap) (k : Line) (rest : List Line),
        parse_go acc (some k) ("#END POSITION".data :: rest) =
          parse_go acc none rest) ∧
    (∀ (td : TrackMap) (rest : List Line) (l : Line),
        "#END".data.isPrefixOf l = true →
        write_go td true (l :: rest) =
          (write_go td false rest).map fun o => l :: o) ∧
    (∀ (td : TrackMap) (rest : List Line) (l : Line),
        "#TRACK".data.isPrefixOf l = false →
        write_go td false (l :: rest) =
          (write_go td false rest).map fun o => l :: o) := by
  refine ⟨?_, ?_, ?_, ?_⟩
  · intro acc k rest l h
    simp [parse_go, end_prefix_lineClass h, h]
  · intro acc k rest
    have h : "#END".data.isPrefixOf ("#END POSITION".data) = true := by decide
    simp [parse_go, end_prefix_lineClass h, h]
  · intro td rest l h
    simp [write_go, end_prefix_lineClass h, h]
  · intro td rest l h
    have hc : lineClass l = .ok .plain := by simp [lineClass, h]
    by_cases h2 : "#END".data.isPrefixOf l = true <;> simp [write_go, hc, h2]

/-- Witness for C10 at the concrete `"#END POSITION"` line. -/
theorem c10_end_closes_section_witness :
    parse_go initTracks (some "TRACK2".data)
        ["#END POSITION".data, "x".data] =
      parse_go initTracks none ["x".data] ∧
    write_go initTracks true ["#END POSITION".data, "x".data] =
      (write_go initTracks false ["x".data]).map
        fun o => "#END POSITION".data :: o :=
  ⟨c10_end_closes_section.1 initTracks "TRACK2".data ["x".data]
      "#END POSITION".data (by decide),
   c10_end_closes_section.2.2.1 initTracks ["x".data]
      "#END POSITION".data (by decide)⟩

/-! ### Helper lemmas: benign headers and dictionary operations -/

lemma benign_lineClass {l : Line} (hb : BenignLine l) :
    lineClass l = .ok .plain ∨
      ∃ c ∈ trackDigits, l = headerLine c ∧
        lineClass l = .ok (.header (trackKey c)) := by
  by_cases hp : "#TRACK".data.isPrefixOf l = true
  · obtain ⟨c, hc⟩ : ∃ c, l.get? 6 = some c :=
      Option.isSome_iff_exists.mp ((hb hp).1)
    have hc2 : l[6]? = some c := by rw [← List.get?_eq_getElem?]; exact hc
    by_cases hd : trackDigits.contains c = true
    · right
      have hdm : c ∈ trackDigits := by simpa using hd
      have hlen : l.length = 7 := (hb hp).2 c hc hd
      obtain ⟨t, ht⟩ := List.isPrefixOf_iff_prefix.mp hp
      subst ht
      have hlt : t.length = 1 := by
        rw [List.length_append] at hlen
        have h6 : ("#TRACK".data : List Char).length = 6 := rfl
        omega
      obtain ⟨d, rfl⟩ : ∃ d, t = [d] := by
        match t, hlt with
        | [d], _ => exact ⟨d, rfl⟩
      have hcd : c = d := by
        have h6 : ("#TRACK".data ++ [d]).get? 6 = some d := rfl
        rw [h6] at hc
        exact (Option.some.inj hc).symm
      subst hcd
      refine ⟨c, hdm, rfl, ?_⟩
      have hcls : lineClass ("#TRACK".data ++ [c]) =
          if trackDigits.contains c = true then
            Except.ok (.header ("TRACK".data ++ [c]))
          else Except.ok .plain := rfl
      rw [hcls]
      simp only [hd, if_true]
      rfl
    · left
      have hdm : ¬ (c ∈ trackDigits) := by simpa using hd
      simp [lineClass, hp, hc2, hdm]
  · left
    simp [lineClass, hp]

lemma tmLookup_tmAppend (tm : TrackMap) (k v k2 : Line) :
    tmLookup (tmAppend tm k v) k2 =
      (tmLookup tm k2).map fun b => if k2 = k then b ++ [v] else b := by
  unfold tmLookup tmAppend
  rw [List.find?_map]
  have hpred : ((fun p : Line × List Line => decide (p.1 = k2)) ∘
      fun p : Line × List Line => if p.1 = k then (p.1, p.2 ++ [v]) else p) =
      fun p : Line × List Line => decide (p.1 = k2) := by
    funext p
    by_cases h : p.1 = k <;> simp [h]
  rw [hpred]
  cases hf : tm.find? fun p : Line × List Line => decide (p.1 = k2) with
  | none => simp
  | some e =>
    have he : e.1 = k2 := by simpa using List.find?_some hf
    show some (Prod.snd (if e.1 = k then (e.1, e.2 ++ [v]) else e)) = _
    rw [apply_ite Prod.snd]
    simp [he]

lemma StandardKeys_tmAppend {tm : TrackMap} (k v : Line)
    (h : StandardKeys tm) : StandardKeys (tmAppend tm k v) := by
  intro c hc
  rw [tmLookup_tmAppend]
  have hm : ∀ (o : Option (List Line)) (f : List Line → List Line),
      (o.map f).isSome = o.isSome := by
    intro o f; cases o <;> simp
  rw [hm]
  exact h c hc

lemma parse_go_success :
    ∀ (lines : List Line) (acc : TrackMap) (cur : Option Line),
      StandardKeys acc →
      (cur = none ∨ ∃ c ∈ trackDigits, cur = some (trackKey c)) →
      (∀ l ∈ lines, BenignLine l) →
      ∃ T, parse_go acc cur lines = .ok T := by
  intro lines
  induction lines with
  | nil => intro acc cur _ _ _; exact ⟨acc, rfl⟩
  | cons l rest ih =>
    intro acc cur hk hcur hb
    have hbl := hb l (List.mem_cons_self l rest)
    have hbr : ∀ x ∈ rest, BenignLine x := fun x hx => hb x (List.mem_cons_of_mem l hx)
    rcases benign_lineClass hbl with hplain | ⟨c, hcd, hhd, hcls⟩
    · simp only [parse_go, hplain]
      by_cases hend : "#END".data.isPrefixOf l = true
      · simp only [hend, if_true]
        exact ih acc none hk (Or.inl rfl) hbr
      · simp only [hend, Bool.false_eq_true, if_false]
        rcases hcur with rfl | ⟨c, hc, rfl⟩
        · exact ih acc none hk (Or.inl rfl) hbr
        · obtain ⟨buf, hbuf⟩ := Option.isSome_iff_exists.mp (hk c hc)
          show ∃ T, (match tmLookup acc (trackKey c) with
            | none => Except.error PyErr.keyError
            | some _ =>
              parse_go (tmAppend acc (trackKey c) l) (some (trackKey c)) rest) =
            Except.ok T
          rw [hbuf]
          exact ih _ (some (trackKey c)) (StandardKeys_tmAppend _ _ hk)
            (Or.inr ⟨c, hc, rfl⟩) hbr
    · simp only [parse_go, hcls]
      exact ih acc (some (trackKey c)) hk (Or.inr ⟨c, hcd, rfl⟩) hbr

lemma write_go_success :
    ∀ (lines : List Line) (td : TrackMap) (b : Bool),
      StandardKeys td →
      (∀ l ∈ lines, BenignLine l) →
      ∃ out, write_go td b lines = .ok out := by
  intro lines
  induction lines with
  | nil => intro td b _ _; exact ⟨[], rfl⟩
  | cons l rest ih =>
    intro td b hk hb
    have hbl := hb l (List.mem_cons_self l rest)
    have hbr : ∀ x ∈ rest, BenignLine x := fun x hx => hb x (List.mem_cons_of_mem l hx)
    rcases benign_lineClass hbl with hplain | ⟨c, hcd, hhd, hcls⟩
    · simp only [write_go, hplain]
      by_cases hend : ("#END".data.isPrefixOf l && b) = true
      · obtain ⟨out, hout⟩ := ih td false hk hbr
        exact ⟨l :: out, by simp [hend, hout, Except.map]⟩
      · simp only [hend, Bool.false_eq_true, if_false]
        by_cases hbb : (!b) = true
        · obtain ⟨out, hout⟩ := ih td b hk hbr
          exact ⟨l :: out, by simp [hbb, hout, Except.map]⟩
        · obtain ⟨out, hout⟩ := ih td b hk hbr
          exact ⟨out, by simp [hbb, hout]⟩
    · simp only [write_go, hcls]
      obtain ⟨buf, hbuf⟩ := Option.isSome_iff_exists.mp (hk c hcd)
      rw [hbuf]
      obtain ⟨out, hout⟩ := ih td true hk hbr
      exact ⟨l :: (buf ++ out), by simp [hout, Except.map]⟩

/-- Claim C9: under the precondition that every stripped `"#TRACK"`-
prefixed line has a 7th character, and is exactly `"#TRACKn"` whenever
that character is a track digit, `parse_file` and `write_to_file`
complete without raising; and some inputs violating the precondition
crash — `"#TRACK"` alone raises `IndexError` (in both functions) and a
`"#TRACK21"` header raises `KeyError` (in `parse_file` as soon as a
content line follows, in `write_to_file` immediately). -/
theorem c9_header_index_safety :
    (∀ rawLines : List Line,
        (∀ l ∈ rawLines, BenignLine (pyStrip l)) →
        ∃ T, parse_file rawLines = .ok T) ∧
    (∀ (lines : List Line) (td : TrackMap),
        StandardKeys td →
        (∀ l ∈ lines, BenignLine l) →
        ∃ out, write_go td false lines = .ok out) ∧
    parse_file ["#TRACK".data] = .error .indexError ∧
    parse_file ["#TRACK21".data, "0,0,0\t0\t0".data] = .error .keyError ∧
    write_go initTracks false ["#TRACK".data] = .error .indexError ∧
    write_go initTracks false ["#TRACK21".data] = .error .keyError := by
  refine ⟨?_, ?_, by decide, by decide, by decide, by decide⟩
  · intro rawLines hb
    refine parse_go_success (rawLines.map pyStrip) initTracks none
      (by decide) (Or.inl rfl) ?_
    intro l hl
    obtain ⟨raw, hraw, rfl⟩ := List.mem_map.mp hl
    exact hb raw hraw
  · intro lines td hk hb
    exact write_go_success lines td false hk hb

/-- Witness for C9: the safety halves applied at concrete inputs. -/
theorem c9_header_index_safety_witness :
    (∃ T, parse_file ["#TRACK3".data, "x\t0\t0".data, "#END".data] = .ok T) ∧
    (∃ out, write_go initTracks false ["#TRACK2".data, "#END".data] = .ok out) :=
  ⟨c9_header_index_safety.1 ["#TRACK3".data, "x\t0\t0".data, "#END".data] (by decide),
   c9_header_index_safety.2.1 ["#TRACK2".data, "#END".data] initTracks
     (by decide) (by decide)⟩

/-! ### Helper lemmas: zero-padded keys and string order -/

lemma pyFormat3_digits : ∀ n, n ≤ 999 → (pyFormat 3 n).data =
    [Nat.digitChar (n / 100), Nat.digitChar (n / 10 % 10), Nat.digitChar (n % 10)] := by
  decide

lemma pyFormat2_digits : ∀ n, n ≤ 99 → (pyFormat 2 n).data =
    [Nat.digitChar (n / 10), Nat.digitChar (n % 10)] := by
  decide

lemma digitChar_lt_iff : ∀ a, a ≤ 9 → ∀ b, b ≤ 9 →
    ((Nat.digitChar a < Nat.digitChar b) ↔ a < b) := by
  decide

lemma digitChar_eq_iff : ∀ a, a ≤ 9 → ∀ b, b ≤ 9 →
    ((Nat.digitChar a = Nat.digitChar b) ↔ a = b) := by
  decide

lemma char_list_nil_lt_nil : ¬ (([] : List Char) < []) := by
  intro h
  cases h

lemma char_list_cons_lt_iff (a b : Char) (as bs : List Char) :
    ((a :: as : List Char) < (b :: bs)) ↔ a < b ∨ (a = b ∧ as < bs) := by
  constructor
  · intro h
    cases h with
    | cons h2 => exact Or.inr ⟨rfl, h2⟩
    | rel h2 => exact Or.inl h2
  · intro h
    rcases h with hab | ⟨rfl, htail⟩
    · exact List.Lex.rel hab
    · exact List.Lex.cons htail

/-- Claim C8: for positions within the fixed digit widths, comparison of
the zero-padded `"MMM,BB,TT"` key strings under ordinary string order
coincides with lexicographic numeric comparison of the triples (hence
sorting aggregation keys as strings yields numeric position order). -/
theorem c8_key_order_matches_numeric (m b t m2 b2 t2 : Nat)
    (hm : m ≤ 999) (hm2 : m2 ≤ 999) (hb : b ≤ 99) (hb2 : b2 ≤ 99)
    (ht : t ≤ 99) (ht2 : t2 ≤ 99) :
    fmtTimestamp m b t < fmtTimestamp m2 b2 t2 ↔ posLt (m, b, t) (m2, b2, t2) := by
  have h1 : (fmtTimestamp m b t).data =
      Nat.digitChar (m / 100) :: Nat.digitChar (m / 10 % 10) :: Nat.digitChar (m % 10) ::
      ',' :: Nat.digitChar (b / 10) :: Nat.digitChar (b % 10) ::
      ',' :: Nat.digitChar (t / 10) :: Nat.digitChar (t % 10) :: [] := by
    unfold fmtTimestamp
    rw [String.data_append, String.data_append, String.data_append, String.data_append]
    rw [pyFormat3_digits m hm, pyFormat2_digits b hb, pyFormat2_digits t ht]
    rfl
  have h2 : (fmtTimestamp m2 b2 t2).data =
      Nat.digitChar (m2 / 100) :: Nat.digitChar (m2 / 10 % 10) :: Nat.digitChar (m2 % 10) ::
      ',' :: Nat.digitChar (b2 / 10) :: Nat.digitChar (b2 % 10) ::
      ',' :: Nat.digitChar (t2 / 10) :: Nat.digitChar (t2 % 10) :: [] := by
    unfold fmtTimestamp
    rw [String.data_append, String.data_append, String.data_append, String.data_append]
    rw [pyFormat3_digits m2 hm2, pyFormat2_digits b2 hb2, pyFormat2_digits t2 ht2]
    rfl
  rw [String.lt_iff_toList_lt]
  rw [show (fmtTimestamp m b t).toList = (fmtTimestamp m b t).data from rfl]
  rw [show (fmtTimestamp m2 b2 t2).toList = (fmtTimestamp m2 b2 t2).data from rfl]
  rw [h1, h2]
  have e1 := digitChar_lt_iff (m / 100) (by omega) (m2 / 100) (by omega)
  have e2 := digitChar_eq_iff (m / 100) (by omega) (m2 / 100) (by omega)
  have e3 := digitChar_lt_iff (m / 10 % 10) (by omega) (m2 / 10 % 10) (by omega)
  have e4 := digitChar_eq_iff (m / 10 % 10) (by omega) (m2 / 10 % 10) (by omega)
  have e5 := digitChar_lt_iff (m % 10) (by omega) (m2 % 10) (by omega)
  have e6 := digitChar_eq_iff (m % 10) (by omega) (m2 % 10) (by omega)
  have e7 := digitChar_lt_iff (b / 10) (by omega) (b2 / 10) (by omega)
  have e8 := digitChar_eq_iff (b / 10) (by omega) (b2 / 10) (by omega)
  have e9 := digitChar_lt_iff (b % 10) (by omega) (b2 % 10) (by omega)
  have e10 := digitChar_eq_iff (b % 10) (by omega) (b2 % 10) (by omega)
  have e11 := digitChar_lt_iff (t / 10) (by omega) (t2 / 10) (by omega)
  have e12 := digitChar_eq_iff (t / 10) (by omega) (t2 / 10) (by omega)
  have e13 := digitChar_lt_iff (t % 10) (by omega) (t2 % 10) (by omega)
  have e14 := digitChar_eq_iff (t % 10) (by omega) (t2 % 10) (by omega)
  simp only [char_list_cons_lt_iff, char_list_nil_lt_nil, lt_irrefl, false_or, or_false,
    and_false, false_and, true_and, and_true, eq_self_iff_true,
    e1, e2, e3, e4, e5, e6, e7, e8, e9, e10, e11, e12, e13, e14]
  unfold posLt
  simp only []
  omega

/-- Witness for C8 at a concrete pair of positions. -/
theorem c8_key_order_matches_numeric_witness :
    (fmtTimestamp 12 3 47 < fmtTimestamp 12 4 0 ↔ posLt (12, 3, 47) (12, 4, 0)) ∧
    12 ≤ 999 ∧ 3 ≤ 99 ∧ 47 ≤ 99 ∧ 4 ≤ 99 :=
  ⟨c8_key_order_matches_numeric 12 3 47 12 4 0 (by decide) (by decide) (by decide)
      (by decide) (by decide) (by decide),
   by decide, by decide, by decide, by decide⟩

/-! ### Helper lemmas: lane conservation -/

lemma specificOrders_perm :
    ∀ o ∈ specificOrders, o.Perm ['a', 'b', 'c', 'd', 'L', 'R'] := by
  decide

/-- Claim C1: for every lane assignment of exhaustive mode, the rebuilt
mapping keeps `TRACK1` and `TRACK8` exactly, the multiset of buffers on
physical tracks 2–7 equals the original multiset, and the source keys
feeding tracks 2–7 are a permutation of the playable keys (each original
playable buffer is used by exactly one physical track). -/
theorem c1_lane_conservation (td : Line → List Line) (order : List Char)
    (h : order ∈ specificOrders) :
    ntdGet (new_track_data td order) "TRACK1".data = td "TRACK1".data ∧
    ntdGet (new_track_data td order) "TRACK8".data = td "TRACK8".data ∧
    (order.map track_identifiers_inverse).Perm playableKeys ∧
    (↑(playableKeys.map fun k => ntdGet (new_track_data td order) k) :
        Multiset (List Line)) =
      (↑(playableKeys.map td) : Multiset (List Line)) := by
  have hperm := specificOrders_perm order h
  have hlen : order.length = 6 := hperm.length_eq
  match order, hlen with
  | [o0, o1, o2, o3, o4, o5], _ =>
    have hp : ([o0, o1, o2, o3, o4, o5] : List Char).Perm
        ['a', 'b', 'c', 'd', 'L', 'R'] := hperm
    refine ⟨rfl, rfl, ?_, ?_⟩
    · have h2 : (List.map track_identifiers_inverse [o0, o1, o2, o3, o4, o5]).Perm
          (List.map track_identifiers_inverse ['a', 'b', 'c', 'd', 'L', 'R']) :=
        hp.map track_identifiers_inverse
      have h3 : (List.map track_identifiers_inverse ['a', 'b', 'c', 'd', 'L', 'R']).Perm
          playableKeys := by decide
      exact h2.trans h3
    · refine Quot.sound ?_
      have hlk : (playableKeys.map fun k => ntdGet (new_track_data td
          [o0, o1, o2, o3, o4, o5]) k) =
          [td (track_identifiers_inverse o4), td (track_identifiers_inverse o0),
           td (track_identifiers_inverse o1), td (track_identifiers_inverse o2),
           td (track_identifiers_inverse o3), td (track_identifiers_inverse o5)] := rfl
      rw [hlk]
      have h4 : ([o4, o0, o1, o2, o3, o5] : List Char).Perm [o0, o1, o2, o3, o4, o5] := by
        have := @List.perm_middle _ o4 [o0, o1, o2, o3] [o5]
        exact this.symm
      have h5 : ([o4, o0, o1, o2, o3, o5] : List Char).Perm
          ['a', 'b', 'c', 'd', 'L', 'R'] := h4.trans hp
      have h6 := h5.map fun c => td (track_identifiers_inverse c)
      refine h6.trans ?_
      have h7 : (List.map (fun c => td (track_identifiers_inverse c))
          ['a', 'b', 'c', 'd', 'L', 'R']) =
          [td "TRACK3".data, td "TRACK4".data, td "TRACK5".data,
           td "TRACK6".data, td "TRACK2".data, td "TRACK7".data] := rfl
      rw [h7]
      have h8 : ([td "TRACK3".data, td "TRACK4".data, td "TRACK5".data,
          td "TRACK6".data] ++ td "TRACK2".data :: [td "TRACK7".data]).Perm
          (td "TRACK2".data :: ([td "TRACK3".data, td "TRACK4".data,
            td "TRACK5".data, td "TRACK6".data] ++ [td "TRACK7".data])) :=
        List.perm_middle
      exact h8

/-- Witness for C1 at a concrete assignment and buffer mapping. -/
theorem c1_lane_conservation_witness :
    ntdGet (new_track_data (fun k => [k]) ['b', 'a', 'c', 'd', 'R', 'L'])
        "TRACK1".data = ["TRACK1".data] ∧
    (↑(playableKeys.map fun k => ntdGet (new_track_data (fun k => [k])
        ['b', 'a', 'c', 'd', 'R', 'L']) k) : Multiset (List Line)) =
      (↑(playableKeys.map fun k => ([k] : List Line)) : Multiset (List Line)) :=
  ⟨(c1_lane_conservation (fun k => [k]) ['b', 'a', 'c', 'd', 'R', 'L']
      (by decide)).1,
   (c1_lane_conservation (fun k => [k]) ['b', 'a', 'c', 'd', 'R', 'L']
      (by decide)).2.2.2⟩

/-! ### Helper lemmas: timestamp generation -/

lemma advanceIdxGo_fuel (bi : List BeatInfoEntry) (m : Nat) :
    ∀ (f idx : Nat), bi.length - 1 - idx ≤ f →
      advanceIdxGo bi m idx f = advanceIdx bi m idx := by
  intro f
  induction f with
  | zero =>
    intro idx hf
    have h0 : bi.length - 1 - idx = 0 := Nat.le_zero.mp hf
    unfold advanceIdx
    rw [h0]
  | succ f ih =>
    intro idx hf
    have hdef : ∀ g, advanceIdxGo bi m idx (g + 1) =
        if idx < bi.length - 1 ∧ (bi.getD (idx + 1) default).measure ≤ m then
          advanceIdxGo bi m (idx + 1) g
        else idx := fun g => rfl
    by_cases hc : idx < bi.length - 1 ∧ (bi.getD (idx + 1) default).measure ≤ m
    · rw [hdef f, if_pos hc, ih (idx + 1) (by omega)]
      unfold advanceIdx
      obtain ⟨k, hk⟩ : ∃ k, bi.length - 1 - idx = k + 1 := ⟨bi.length - 1 - idx - 1, by omega⟩
      rw [hk, hdef k, if_pos hc]
      have hk2 : k = bi.length - 1 - (idx + 1) := by omega
      rw [hk2]
    · rw [hdef f, if_neg hc]
      unfold advanceIdx
      cases hk : bi.length - 1 - idx with
      | zero => rfl
      | succ k => rw [hdef k, if_neg hc]

lemma advanceIdx_unfold (bi : List BeatInfoEntry) (m idx : Nat) :
    advanceIdx bi m idx =
      if idx < bi.length - 1 ∧ (bi.getD (idx + 1) default).measure ≤ m then
        advanceIdx bi m (idx + 1)
      else idx := by
  have hdef : ∀ g, advanceIdxGo bi m idx (g + 1) =
      if idx < bi.length - 1 ∧ (bi.getD (idx + 1) default).measure ≤ m then
        advanceIdxGo bi m (idx + 1) g
      else idx := fun g => rfl
  by_cases hc : idx < bi.length - 1 ∧ (bi.getD (idx + 1) default).measure ≤ m
  · rw [if_pos hc]
    conv =>
      lhs
      unfold advanceIdx
    obtain ⟨k, hk⟩ : ∃ k, bi.length - 1 - idx = k + 1 := ⟨bi.length - 1 - idx - 1, by omega⟩
    rw [hk, hdef k, if_pos hc]
    exact advanceIdxGo_fuel bi m k (idx + 1) (by omega)
  · rw [if_neg hc]
    conv =>
      lhs
      unfold advanceIdx
    cases hk : bi.length - 1 - idx with
    | zero => rfl
    | succ k => rw [hdef k, if_neg hc]

lemma advanceIdx_chain (bi : List BeatInfoEntry) {m m2 : Nat} (h : m2 ≤ m) :
    ∀ idx, advanceIdx bi m (advanceIdx bi m2 idx) = advanceIdx bi m idx := by
  suffices hs : ∀ (f idx : Nat), bi.length - 1 - idx ≤ f →
      advanceIdx bi m (advanceIdx bi m2 idx) = advanceIdx bi m idx by
    intro idx
    exact hs (bi.length - 1 - idx) idx le_rfl
  intro f
  induction f with
  | zero =>
    intro idx hf
    have h0 : ¬ (idx < bi.length - 1 ∧ (bi.getD (idx + 1) default).measure ≤ m2) := by
      intro hc
      omega
    rw [advanceIdx_unfold bi m2 idx, if_neg h0]
  | succ f ih =>
    intro idx hf
    by_cases hc : idx < bi.length - 1 ∧ (bi.getD (idx + 1) default).measure ≤ m2
    · rw [advanceIdx_unfold bi m2 idx, if_pos hc]
      rw [ih (idx + 1) (by omega)]
      have hc2 : idx < bi.length - 1 ∧ (bi.getD (idx + 1) default).measure ≤ m :=
        ⟨hc.1, hc.2.trans h⟩
      rw [advanceIdx_unfold bi m idx, if_pos hc2]
    · rw [advanceIdx_unfold bi m2 idx, if_neg hc]

lemma posLt_trans {a b c : Nat × Nat × Nat} (h1 : posLt a b) (h2 : posLt b c) :
    posLt a c := by
  unfold posLt at h1 h2 ⊢
  omega

lemma tickLoop_spec (m b : Nat) (e : Nat × Nat × Nat) :
    ∀ ts : List Nat,
      tickLoop m b e ts =
        (((ts.map fun t => (m, b, t)).takeWhile fun p => !posGtB p e).map
            (fun p => fmtTimestamp p.1 p.2.1 p.2.2),
         (ts.map fun t => (m, b, t)).any fun p => posGtB p e) := by
  intro ts
  induction ts with
  | nil => rfl
  | cons t ts ih =>
    cases hx : posGtB (m, b, t) e with
    | true => simp [tickLoop, hx, List.takeWhile_cons, List.any_cons]
    | false => simp [tickLoop, hx, List.takeWhile_cons, List.any_cons, ih]

lemma all_not_eq_not_any {α : Type} (l : List α) (q : α → Bool) :
    (l.all fun x => !q x) = !(l.any q) := by
  induction l with
  | nil => rfl
  | cons a l ih => simp [List.all_cons, List.any_cons, ih]

lemma takeWhile_append_pos {α : Type} (p : α → Bool) :
    ∀ (l1 l2 : List α), l1.all p = true →
      (l1 ++ l2).takeWhile p = l1 ++ l2.takeWhile p := by
  intro l1
  induction l1 with
  | nil => intro l2 _; rfl
  | cons a l1 ih =>
    intro l2 h
    rw [List.all_cons, Bool.and_eq_true] at h
    simp only [List.cons_append, List.takeWhile_cons, h.1, if_true]
    rw [ih l2 h.2]

lemma takeWhile_append_neg {α : Type} (p : α → Bool) :
    ∀ (l1 l2 : List α), l1.all p = false →
      (l1 ++ l2).takeWhile p = l1.takeWhile p := by
  intro l1
  induction l1 with
  | nil => intro l2 h; simp at h
  | cons a l1 ih =>
    intro l2 h
    rw [List.all_cons] at h
    cases ha : p a with
    | false =>
      simp only [List.cons_append, List.takeWhile_cons, ha, Bool.false_eq_true, if_false]
    | true =>
      rw [ha, Bool.true_and] at h
      simp only [List.cons_append, List.takeWhile_cons, ha, if_true]
      rw [ih l2 h]

lemma takeWhile_all {α : Type} (p : α → Bool) (l : List α) (h : l.all p = true) :
    l.takeWhile p = l :=
  List.takeWhile_eq_self_iff.mpr (List.all_eq_true.mp h)

lemma beatLoop_spec (m : Nat) (e : Nat × Nat × Nat) :
    ∀ bs : List Nat,
      beatLoop m e bs =
        (((bs.flatMap fun b => (List.range 48).map fun t => (m, b, t)).takeWhile
              fun p => !posGtB p e).map (fun p => fmtTimestamp p.1 p.2.1 p.2.2),
         (bs.flatMap fun b => (List.range 48).map fun t => (m, b, t)).any
            fun p => posGtB p e) := by
  intro bs
  induction bs with
  | nil => rfl
  | cons b bs ih =>
    have ht := tickLoop_spec m b e (List.range 48)
    simp only [beatLoop, ht, List.flatMap_cons]
    cases hA : ((List.range 48).map fun t => (m, b, t)).any fun p => posGtB p e with
    | true =>
      have hall : (((List.range 48).map fun t => (m, b, t)).all
          fun p => !posGtB p e) = false := by
        rw [all_not_eq_not_any, hA]
        rfl
      rw [takeWhile_append_neg _ _ _ hall]
      rw [List.any_append, hA]
      rfl
    | false =>
      have hall : (((List.range 48).map fun t => (m, b, t)).all
          fun p => !posGtB p e) = true := by
        rw [all_not_eq_not_any, hA]
        rfl
      simp only [ih]
      rw [takeWhile_append_pos _ _ _ hall]
      rw [List.any_append, hA, Bool.false_or]
      rw [List.map_append, takeWhile_all _ _ hall]

lemma measureLoop_spec (bi : List BeatInfoEntry) (e : Nat × Nat × Nat) :
    ∀ (ms : List Nat) (idx : Nat),
      (∀ m ∈ ms, advanceIdx bi m idx = advanceIdx bi m 0) →
      List.Pairwise (· ≤ ·) ms →
      measureLoop bi e idx ms =
        ((ms.flatMap fun m => (List.range' 1 (activeBpm bi m)).flatMap fun b =>
            (List.range 48).map fun t => (m, b, t)).takeWhile
          (fun p => !posGtB p e)).map (fun p => fmtTimestamp p.1 p.2.1 p.2.2) := by
  intro ms
  induction ms with
  | nil => intro idx _ _; rfl
  | cons m ms ih =>
    intro idx hidx hpw
    have hidx2 : advanceIdx bi m idx = advanceIdx bi m 0 :=
      hidx m (List.mem_cons_self m ms)
    have hbpm : (bi.getD (advanceIdx bi m idx) default).beats_per_measure =
        activeBpm bi m := by
      rw [hidx2]
      rfl
    have hb := beatLoop_spec m e (List.range' 1 (activeBpm bi m))
    simp only [measureLoop, hbpm, hb, List.flatMap_cons]
    cases hA : ((List.range' 1 (activeBpm bi m)).flatMap fun b =>
        (List.range 48).map fun t => (m, b, t)).any (fun p => posGtB p e) with
    | true =>
      have hall : (((List.range' 1 (activeBpm bi m)).flatMap fun b =>
          (List.range 48).map fun t => (m, b, t)).all fun p => !posGtB p e) = false := by
        rw [all_not_eq_not_any, hA]
        rfl
      rw [takeWhile_append_neg _ _ _ hall]
    | false =>
      have hall : (((List.range' 1 (activeBpm bi m)).flatMap fun b =>
          (List.range 48).map fun t => (m, b, t)).all fun p => !posGtB p e) = true := by
        rw [all_not_eq_not_any, hA]
        rfl
      have hrec := ih (advanceIdx bi m idx)
        (by
          intro m2 hm2
          rw [hidx2]
          have hle : m ≤ m2 := List.rel_of_pairwise_cons hpw hm2
          exact advanceIdx_chain bi hle 0)
        (List.Pairwise.sublist (List.sublist_cons_self m ms) hpw)
      rw [hrec]
      rw [takeWhile_append_pos _ _ _ hall]
      rw [List.map_append, takeWhile_all _ _ hall]

lemma pairwise_flatMap {α β : Type} (R : β → β → Prop) (S : α → α → Prop)
    (f : α → List β) :
    ∀ l : List α, List.Pairwise S l → (∀ a ∈ l, List.Pairwise R (f a)) →
      (∀ a b, S a b → ∀ x ∈ f a, ∀ y ∈ f b, R x y) →
      List.Pairwise R (l.flatMap f) := by
  intro l
  induction l with
  | nil => intro _ _ _; exact List.Pairwise.nil
  | cons a l ih =>
    intro hpw hin hcross
    rw [List.flatMap_cons]
    rw [List.pairwise_append]
    refine ⟨hin a (List.mem_cons_self a l), ?_, ?_⟩
    · exact ih (List.Pairwise.sublist (List.sublist_cons_self a l) hpw)
        (fun x hx => hin x (List.mem_cons_of_mem a hx)) hcross
    · intro x hx y hy
      obtain ⟨b, hb, hyb⟩ := List.mem_flatMap.mp hy
      exact hcross a b (List.rel_of_pairwise_cons hpw hb) x hx y hyb

lemma gridPositions_pairwise (bi : List BeatInfoEntry) (e : Nat × Nat × Nat) :
    List.Pairwise posLt (gridPositions bi e) := by
  unfold gridPositions
  refine pairwise_flatMap posLt (· < ·) _ _ (List.pairwise_lt_range' 1 e.1) ?_ ?_
  · intro m _
    refine pairwise_flatMap posLt (· < ·) _ _
      (List.pairwise_lt_range' 1 (activeBpm bi m)) ?_ ?_
    · intro b _
      rw [List.pairwise_map]
      refine List.Pairwise.imp ?_ (List.pairwise_lt_range 48)
      intro t t2 ht
      exact Or.inr ⟨rfl, Or.inr ⟨rfl, ht⟩⟩
    · intro b b2 hb x hx y hy
      obtain ⟨t, _, rfl⟩ := List.mem_map.mp hx
      obtain ⟨t2, _, rfl⟩ := List.mem_map.mp hy
      exact Or.inr ⟨rfl, Or.inl hb⟩
  · intro m m2 hm x hx y hy
    obtain ⟨b, _, hxb⟩ := List.mem_flatMap.mp hx
    obtain ⟨b2, _, hyb⟩ := List.mem_flatMap.mp hy
    obtain ⟨t, _, rfl⟩ := List.mem_map.mp hxb
    obtain ⟨t2, _, rfl⟩ := List.mem_map.mp hyb
    exact Or.inl hm

lemma takeWhile_eq_filter_of_sorted {α : Type} (R : α → α → Prop) (p : α → Bool)
    (hmono : ∀ a b, R a b → p a = false → p b = false) :
    ∀ l : List α, List.Pairwise R l → l.takeWhile p = l.filter p := by
  intro l
  induction l with
  | nil => intro _; rfl
  | cons a l ih =>
    intro hpw
    cases ha : p a with
    | true =>
      rw [List.takeWhile_cons_of_pos ha, List.filter_cons_of_pos ha]
      rw [ih (List.Pairwise.sublist (List.sublist_cons_self a l) hpw)]
    | false =>
      rw [List.takeWhile_cons_of_neg (by simp [ha]), List.filter_cons_of_neg (by simp [ha])]
      rw [List.filter_eq_nil_iff.mpr]
      intro x hx
      have hr := List.rel_of_pairwise_cons hpw hx
      simp [hmono a x hr ha]

set_option linter.unusedVariables false in
/-- Claim C3: for nonempty beat info, `generate_timestamps` returns
exactly the grid positions — measures `1..terminal.measure` with the
active segment's `beats_per_measure`, a fixed 48 ticks per beat, every
segment's `ticks_per_beat` ignored — that do not exceed the terminal
position, formatted, in order: the early `return` at the first exceeding
position coincides with filtering because the grid is emitted in
strictly increasing position order. -/
theorem c3_generate_timestamps_spec (bi : List BeatInfoEntry)
    (e : Nat × Nat × Nat) (hne : bi ≠ []) :
    generate_timestamps bi e = timestampsSpec bi e := by
  clear hne
  unfold generate_timestamps timestampsSpec
  rw [measureLoop_spec bi e (List.range' 1 e.1) 0 (fun m _ => rfl)
    (List.Pairwise.imp le_of_lt (List.pairwise_lt_range' 1 e.1))]
  rw [show ((List.range' 1 e.1).flatMap fun m =>
      (List.range' 1 (activeBpm bi m)).flatMap fun b =>
        List.map (fun t => (m, b, t)) (List.range 48)) = gridPositions bi e from rfl]
  rw [takeWhile_eq_filter_of_sorted posLt (fun p => !posGtB p e) ?_ _
    (gridPositions_pairwise bi e)]
  intro a b hab ha
  have ha3 : posGtB a e = true := by
    cases hx : posGtB a e with
    | true => rfl
    | false =>
      exfalso
      rw [show (fun p => !posGtB p e) a = !posGtB a e from rfl, hx] at ha
      exact absurd ha (by decide)
  have ha2 : posLt e a := by
    unfold posGtB at ha3
    exact of_decide_eq_true ha3
  have hb2 : posLt e b := posLt_trans ha2 hab
  show (!posGtB b e) = false
  unfold posGtB
  rw [decide_eq_true hb2]
  rfl

/-- Witness for C3: the spec's own grid-sizing example (one 4/4 segment,
terminal `(1,1,5)`). -/
theorem c3_generate_timestamps_spec_witness :
    ([⟨1, 1, 0, 4, 4⟩] : List BeatInfoEntry) ≠ [] ∧
    generate_timestamps [⟨1, 1, 0, 4, 4⟩] (1, 1, 5) =
      timestampsSpec [⟨1, 1, 0, 4, 4⟩] (1, 1, 5) :=
  ⟨by decide, c3_generate_timestamps_spec [⟨1, 1, 0, 4, 4⟩] (1, 1, 5) (by decide)⟩

/-! ### Helper lemmas: round trip (claim C4) -/

lemma contains_of_mem {c : Char} {l : Line} (h : c ∈ l) : l.contains c = true := by
  simpa using h

lemma trackKey_inj {c c2 : Char} (h : trackKey c = trackKey c2) : c = c2 := by
  unfold trackKey at h
  have h2 := List.append_inj_right h rfl
  exact (List.cons.inj h2).1

lemma headerLine_isDigitHeader {c : Char} (h : c ∈ trackDigits) :
    isDigitHeaderB (headerLine c) = true := by
  have hrfl : isDigitHeaderB (headerLine c) = trackDigits.contains c := rfl
  rw [hrfl]
  exact contains_of_mem h

lemma plain_not_digitHeader {l : Line} (h : lineClass l = .ok .plain) :
    isDigitHeaderB l = false := by
  unfold lineClass at h
  unfold isDigitHeaderB
  by_cases hp : "#TRACK".data.isPrefixOf l = true
  · rw [hp] at h
    simp only [if_true, Bool.true_and] at h ⊢
    cases hg : l.get? 6 with
    | none => rw [hg] at h; exact absurd h (by simp)
    | some c =>
      rw [hg] at h
      cases hc : trackDigits.contains c with
      | true =>
        simp [hc] at h
        exact absurd (show c ∈ trackDigits by simpa using hc) h
      | false =>
        simp [hc]
        intro _
        simpa using hc
  · rw [Bool.not_eq_true] at hp
    rw [hp]
    rfl

lemma benign_digitHeader {l : Line} (hb : BenignLine l)
    (hd : isDigitHeaderB l = true) : ∃ c ∈ trackDigits, l = headerLine c := by
  rcases benign_lineClass hb with hplain | ⟨c, hc, rfl, _⟩
  · rw [plain_not_digitHeader hplain] at hd
    exact absurd hd (by simp)
  · exact ⟨c, hc, rfl⟩

lemma content_lineClass {l : Line} (hb : BenignLine l)
    (hc : isBoundaryB l = false) : lineClass l = .ok .plain := by
  rcases benign_lineClass hb with hplain | ⟨c, hcd, rfl, _⟩
  · exact hplain
  · unfold isBoundaryB at hc
    rw [headerLine_isDigitHeader hcd] at hc
    simp at hc

lemma boundary_end_of_header_false {l : Line} (hc : isBoundaryB l = false) :
    "#END".data.isPrefixOf l = false := by
  unfold isBoundaryB at hc
  exact (Bool.or_eq_false_iff.mp hc).1

lemma dropWhile_head_not {α : Type} (p : α → Bool) :
    ∀ (l : List α) (b : α) (rest2 : List α), l.dropWhile p = b :: rest2 →
      p b = false := by
  intro l
  induction l with
  | nil => intro b rest2 h; exact absurd h (by simp)
  | cons a l ih =>
    intro b rest2 h
    rw [List.dropWhile_cons] at h
    by_cases ha : p a = true
    · rw [if_pos ha] at h
      exact ih b rest2 h
    · rw [if_neg ha] at h
      obtain ⟨rfl, _⟩ := List.cons.inj h
      exact Bool.not_eq_true _ |>.mp ha

lemma tmLookup_tmAppendAll_same (k : Line) :
    ∀ (ls : List Line) (tm : TrackMap) (buf : List Line),
      tmLookup tm k = some buf →
      tmLookup (tmAppendAll tm k ls) k = some (buf ++ ls) := by
  intro ls
  induction ls with
  | nil => intro tm buf h; simpa using h
  | cons x xs ih =>
    intro tm buf h
    show tmLookup (tmAppendAll (tmAppend tm k x) k xs) k = _
    have h2 : tmLookup (tmAppend tm k x) k = some (buf ++ [x]) := by
      rw [tmLookup_tmAppend, h]
      simp
    rw [ih (tmAppend tm k x) (buf ++ [x]) h2]
    simp

lemma tmLookup_tmAppendAll_other {k k2 : Line} (hne : k2 ≠ k) :
    ∀ (ls : List Line) (tm : TrackMap),
      tmLookup (tmAppendAll tm k ls) k2 = tmLookup tm k2 := by
  intro ls
  induction ls with
  | nil => intro tm; rfl
  | cons x xs ih =>
    intro tm
    show tmLookup (tmAppendAll (tmAppend tm k x) k xs) k2 = _
    rw [ih (tmAppend tm k x)]
    rw [tmLookup_tmAppend]
    have hfun : (fun b : List Line => if k2 = k then b ++ [x] else b) =
        fun b : List Line => b := by
      funext b
      rw [if_neg hne]
    rw [hfun]
    cases tmLookup tm k2 <;> rfl

lemma parse_go_cons (tracks : TrackMap) (cur : Option Line) (line : Line)
    (rest : List Line) :
    parse_go tracks cur (line :: rest) =
      match lineClass line with
      | .error e => .error e
      | .ok (.header k) => parse_go tracks (some k) rest
      | .ok .plain =>
        if "#END".data.isPrefixOf line then parse_go tracks none rest
        else
          match cur with
          | none => parse_go tracks none rest
          | some t =>
            match tmLookup tracks t with
            | none => .error .keyError
            | some _ => parse_go (tmAppend tracks t line) (some t) rest := rfl

lemma write_go_cons (td : TrackMap) (inTrack : Bool) (line : Line)
    (rest : List Line) :
    write_go td inTrack (line :: rest) =
      match lineClass line with
      | .error e => .error e
      | .ok (.header k) =>
        match tmLookup td k with
        | none => .error .keyError
        | some buf => (write_go td true rest).map fun out => line :: (buf ++ out)
      | .ok .plain =>
        if "#END".data.isPrefixOf line && inTrack then
          (write_go td false rest).map fun out => line :: out
        else if !inTrack then
          (write_go td inTrack rest).map fun out => line :: out
        else
          write_go td inTrack rest := rfl

lemma parse_go_cons_header {line : Line} {k : Line}
    (h : lineClass line = .ok (.header k)) (tracks : TrackMap)
    (cur : Option Line) (rest : List Line) :
    parse_go tracks cur (line :: rest) = parse_go tracks (some k) rest := by
  rw [parse_go_cons, h]

lemma parse_go_cons_end {line : Line} (h1 : lineClass line = .ok .plain)
    (h2 : "#END".data.isPrefixOf line = true) (tracks : TrackMap)
    (cur : Option Line) (rest : List Line) :
    parse_go tracks cur (line :: rest) = parse_go tracks none rest := by
  rw [parse_go_cons, h1]
  show (if "#END".data.isPrefixOf line = true then _ else _) = _
  rw [if_pos h2]

lemma parse_go_cons_skip {line : Line} (h1 : lineClass line = .ok .plain)
    (h2 : "#END".data.isPrefixOf line = false) (tracks : TrackMap)
    (rest : List Line) :
    parse_go tracks none (line :: rest) = parse_go tracks none rest := by
  rw [parse_go_cons, h1]
  show (if "#END".data.isPrefixOf line = true then _ else _) = _
  rw [if_neg (by simp [h2])]

lemma parse_go_cons_collect {line t : Line} (h1 : lineClass line = .ok .plain)
    (h2 : "#END".data.isPrefixOf line = false) {tracks : TrackMap}
    {buf : List Line} (h3 : tmLookup tracks t = some buf) (rest : List Line) :
    parse_go tracks (some t) (line :: rest) =
      parse_go (tmAppend tracks t line) (some t) rest := by
  rw [parse_go_cons, h1]
  show (if "#END".data.isPrefixOf line = true then _ else _) = _
  rw [if_neg (by simp [h2])]
  show (match tmLookup tracks t with
    | none => Except.error PyErr.keyError
    | some _ => parse_go (tmAppend tracks t line) (some t) rest) = _
  rw [h3]

lemma parse_go_cons_collect_err {line t : Line} (h1 : lineClass line = .ok .plain)
    (h2 : "#END".data.isPrefixOf line = false) {tracks : TrackMap}
    (h3 : tmLookup tracks t = none) (rest : List Line) :
    parse_go tracks (some t) (line :: rest) = .error .keyError := by
  rw [parse_go_cons, h1]
  show (if "#END".data.isPrefixOf line = true then _ else _) = _
  rw [if_neg (by simp [h2])]
  show (match tmLookup tracks t with
    | none => Except.error PyErr.keyError
    | some _ => parse_go (tmAppend tracks t line) (some t) rest) = _
  rw [h3]

lemma write_go_cons_header {line : Line} {k : Line}
    (h : lineClass line = .ok (.header k)) {td : TrackMap} {buf : List Line}
    (h3 : tmLookup td k = some buf) (inTrack : Bool) (rest : List Line) :
    write_go td inTrack (line :: rest) =
      (write_go td true rest).map fun out => line :: (buf ++ out) := by
  rw [write_go_cons, h]
  show (match tmLookup td k with
    | none => Except.error PyErr.keyError
    | some buf => (write_go td true rest).map fun out => line :: (buf ++ out)) = _
  rw [h3]

lemma write_go_cons_end {line : Line} (h1 : lineClass line = .ok .plain)
    (h2 : "#END".data.isPrefixOf line = true) (td : TrackMap) (rest : List Line) :
    write_go td true (line :: rest) =
      (write_go td false rest).map fun out => line :: out := by
  rw [write_go_cons, h1, h2]
  rfl

lemma write_go_cons_emit {line : Line} (h1 : lineClass line = .ok .plain)
    (td : TrackMap) (rest : List Line) :
    write_go td false (line :: rest) =
      (write_go td false rest).map fun out => line :: out := by
  rw [write_go_cons, h1]
  rw [Bool.and_false]
  rfl

lemma write_go_cons_skipline {line : Line} (h1 : lineClass line = .ok .plain)
    (h2 : "#END".data.isPrefixOf line = false) (td : TrackMap) (rest : List Line) :
    write_go td true (line :: rest) = write_go td true rest := by
  rw [write_go_cons, h1, h2]
  rfl

lemma StandardKeys_tmAppendAll {k : Line} :
    ∀ (ls : List Line) (tm : TrackMap), StandardKeys tm →
      StandardKeys (tmAppendAll tm k ls) := by
  intro ls
  induction ls with
  | nil => intro tm h; exact h
  | cons x xs ih =>
    intro tm h
    exact ih (tmAppend tm k x) (StandardKeys_tmAppend k x h)

lemma parse_go_standard :
    ∀ (lines : List Line) (acc : TrackMap) (cur : Option Line) (T : TrackMap),
      parse_go acc cur lines = .ok T →
      (∀ l ∈ lines, BenignLine l) →
      StandardKeys acc → StandardKeys T := by
  intro lines
  induction lines with
  | nil =>
    intro acc cur T hp _ hk
    have h2 : acc = T := Except.ok.inj hp
    exact h2 ▸ hk
  | cons l rest ih =>
    intro acc cur T hp hb hk
    have hbl := hb l (List.mem_cons_self l rest)
    have hbr : ∀ x ∈ rest, BenignLine x := fun x hx => hb x (List.mem_cons_of_mem l hx)
    rcases benign_lineClass hbl with hplain | ⟨c, hcd, hline, hcls⟩
    · by_cases hend : "#END".data.isPrefixOf l = true
      · rw [parse_go_cons_end hplain hend] at hp
        exact ih acc none T hp hbr hk
      · rw [Bool.not_eq_true] at hend
        cases cur with
        | none =>
          rw [parse_go_cons_skip hplain hend] at hp
          exact ih acc none T hp hbr hk
        | some t =>
          cases hlk : tmLookup acc t with
          | none =>
            rw [parse_go_cons_collect_err hplain hend hlk] at hp
            exact absurd hp (by simp)
          | some buf =>
            rw [parse_go_cons_collect hplain hend hlk] at hp
            exact ih (tmAppend acc t l) (some t) T hp hbr (StandardKeys_tmAppend t l hk)
    · rw [parse_go_cons_header hcls] at hp
      exact ih acc (some (trackKey c)) T hp hbr hk

lemma parse_go_lookup_preserve {k : Line} :
    ∀ (lines : List Line) (acc : TrackMap) (cur : Option Line) (T : TrackMap),
      parse_go acc cur lines = .ok T →
      (∀ t, cur = some t → t ≠ k) →
      (∀ c ∈ trackDigits, trackKey c = k → headerLine c ∉ lines) →
      (∀ l ∈ lines, BenignLine l) →
      tmLookup T k = tmLookup acc k := by
  intro lines
  induction lines with
  | nil =>
    intro acc cur T hp _ _ _
    have h2 : acc = T := Except.ok.inj hp
    rw [← h2]
  | cons l rest ih =>
    intro acc cur T hp hcur hhd hb
    have hbl := hb l (List.mem_cons_self l rest)
    have hbr : ∀ x ∈ rest, BenignLine x := fun x hx => hb x (List.mem_cons_of_mem l hx)
    have hhdr : ∀ c ∈ trackDigits, trackKey c = k → headerLine c ∉ rest :=
      fun c hc hck hmem => hhd c hc hck (List.mem_cons_of_mem l hmem)
    rcases benign_lineClass hbl with hplain | ⟨c, hcd, hline, hcls⟩
    · by_cases hend : "#END".data.isPrefixOf l = true
      · rw [parse_go_cons_end hplain hend] at hp
        exact ih acc none T hp (by simp) hhdr hbr
      · rw [Bool.not_eq_true] at hend
        cases cur with
        | none =>
          rw [parse_go_cons_skip hplain hend] at hp
          exact ih acc none T hp (by simp) hhdr hbr
        | some t =>
          cases hlk : tmLookup acc t with
          | none =>
            rw [parse_go_cons_collect_err hplain hend hlk] at hp
            exact absurd hp (by simp)
          | some buf =>
            rw [parse_go_cons_collect hplain hend hlk] at hp
            have htk : t ≠ k := hcur t rfl
            have h2 := ih (tmAppend acc t l) (some t) T hp
              (fun t2 ht2 => (Option.some.inj ht2) ▸ htk) hhdr hbr
            rw [h2, tmLookup_tmAppend]
            have hfun : (fun b : List Line => if k = t then b ++ [l] else b) =
                fun b : List Line => b := by
              funext b
              rw [if_neg (fun hkt => htk hkt.symm)]
            rw [hfun]
            cases tmLookup acc k <;> rfl
    · have hck : trackKey c ≠ k := by
        intro hck
        exact hhd c hcd hck (hline ▸ List.mem_cons_self l rest)
      rw [parse_go_cons_header hcls] at hp
      exact ih acc (some (trackKey c)) T hp
        (fun t2 ht2 => (Option.some.inj ht2) ▸ hck) hhdr hbr

lemma parse_go_chunk {k : Line} :
    ∀ (chunk rest2 : List Line) (acc : TrackMap),
      (∀ l ∈ chunk, isBoundaryB l = false ∧ BenignLine l) →
      (tmLookup acc k).isSome = true →
      parse_go acc (some k) (chunk ++ rest2) =
        parse_go (tmAppendAll acc k chunk) (some k) rest2 := by
  intro chunk
  induction chunk with
  | nil => intro rest2 acc _ _; rfl
  | cons x xs ih =>
    intro rest2 acc hc hk
    have hx := hc x (List.mem_cons_self x xs)
    have hcls : lineClass x = .ok .plain := content_lineClass hx.2 hx.1
    have hend : "#END".data.isPrefixOf x = false := boundary_end_of_header_false hx.1
    obtain ⟨buf, hbuf⟩ := Option.isSome_iff_exists.mp hk
    rw [show ((x :: xs) ++ rest2) = x :: (xs ++ rest2) from rfl]
    rw [parse_go_cons_collect hcls hend hbuf]
    have hk2 : (tmLookup (tmAppend acc k x) k).isSome = true := by
      rw [tmLookup_tmAppend, hbuf]
      simp
    exact ih rest2 (tmAppend acc k x) (fun l hl => hc l (List.mem_cons_of_mem x hl)) hk2

lemma write_go_skip (td : TrackMap) :
    ∀ (chunk rest2 : List Line),
      (∀ l ∈ chunk, isBoundaryB l = false ∧ BenignLine l) →
      write_go td true (chunk ++ rest2) = write_go td true rest2 := by
  intro chunk
  induction chunk with
  | nil => intro rest2 _; rfl
  | cons x xs ih =>
    intro rest2 hc
    have hx := hc x (List.mem_cons_self x xs)
    have hcls : lineClass x = .ok .plain := content_lineClass hx.2 hx.1
    have hend : "#END".data.isPrefixOf x = false := boundary_end_of_header_false hx.1
    rw [show ((x :: xs) ++ rest2) = x :: (xs ++ rest2) from rfl]
    rw [write_go_cons_skipline hcls hend]
    exact ih rest2 (fun l hl => hc l (List.mem_cons_of_mem x hl))

lemma uniq_sublist {l1 l2 : List Line} (h : l1.Sublist l2)
    (hu : UniqueHeaders l2) : UniqueHeaders l1 :=
  fun c hc => le_trans (h.count_le (headerLine c)) (hu c hc)

lemma headerLine_inj {c c2 : Char} (h : headerLine c = headerLine c2) : c = c2 :=
  trackKey_inj (List.cons.inj h).2

lemma benign_header_class {c : Char} (hc : c ∈ trackDigits) :
    lineClass (headerLine c) = .ok (.header (trackKey c)) := by
  have hrfl : lineClass (headerLine c) =
      if trackDigits.contains c = true then
        Except.ok (.header (trackKey c))
      else Except.ok .plain := rfl
  rw [hrfl, if_pos (contains_of_mem hc)]

lemma count_cons_head_le_one {c : Char} {rest : List Line}
    (hu : UniqueHeaders (headerLine c :: rest)) (hc : c ∈ trackDigits) :
    headerLine c ∉ rest := by
  have h1 := hu c hc
  rw [List.count_cons_self] at h1
  rw [← List.count_eq_zero]
  omega

lemma write_parse_round_trip :
    ∀ (n : Nat) (lines : List Line), lines.length ≤ n →
      ∀ (acc : TrackMap) (cur : Option Line) (T : TrackMap),
        StandardKeys acc →
        (∀ c ∈ trackDigits, headerLine c ∈ lines →
          tmLookup acc (trackKey c) = some []) →
        UniqueHeaders lines →
        (∀ l ∈ lines, BenignLine l) →
        (cur = none ∨ ∃ c ∈ trackDigits, cur = some (trackKey c) ∧
          (lines = [] ∨ ∃ b rest3, lines = b :: rest3 ∧ isBoundaryB b = true)) →
        parse_go acc cur lines = .ok T →
        write_go T cur.isSome lines = .ok lines := by
  intro n
  induction n with
  | zero =>
    intro lines hlen acc cur T _ _ _ _ _ hp
    have hnil : lines = [] := List.length_eq_zero.mp (Nat.le_zero.mp hlen)
    subst hnil
    cases cur <;> rfl
  | succ n ih =>
    intro lines hlen acc cur T hk hhd hu hb hcur hp
    cases lines with
    | nil => cases cur <;> rfl
    | cons l rest =>
      have hbl := hb l (List.mem_cons_self l rest)
      have hbr : ∀ x ∈ rest, BenignLine x :=
        fun x hx => hb x (List.mem_cons_of_mem l hx)
      rcases benign_lineClass hbl with hplain | ⟨c, hcd, hline, hcls⟩
      · -- plain head line
        by_cases hend : "#END".data.isPrefixOf l = true
        · rw [parse_go_cons_end hplain hend] at hp
          have hwr : write_go T false rest = .ok rest := by
            refine ih rest (by
                simp only [List.length_cons] at hlen
                omega) acc none T hk ?_
              (uniq_sublist (List.sublist_cons_self l rest) hu) hbr (Or.inl rfl) hp
            intro c hc hmem
            exact hhd c hc (List.mem_cons_of_mem l hmem)
          cases cur with
          | none =>
            rw [show (none : Option Line).isSome = false from rfl]
            rw [write_go_cons_emit hplain, hwr]
            rfl
          | some t =>
            rw [show (some t).isSome = true from rfl]
            rw [write_go_cons_end hplain hend, hwr]
            rfl
        · rw [Bool.not_eq_true] at hend
          cases cur with
          | none =>
            rw [parse_go_cons_skip hplain hend] at hp
            have hwr : write_go T false rest = .ok rest := by
              refine ih rest (by
                  simp only [List.length_cons] at hlen
                  omega) acc none T hk ?_
                (uniq_sublist (List.sublist_cons_self l rest) hu) hbr (Or.inl rfl) hp
              intro c hc hmem
              exact hhd c hc (List.mem_cons_of_mem l hmem)
            rw [show (none : Option Line).isSome = false from rfl]
            rw [write_go_cons_emit hplain, hwr]
            rfl
          | some t =>
            exfalso
            rcases hcur with hno | ⟨c, _, _, hbd | ⟨b, rest3, heq, hbB⟩⟩
            · exact Option.noConfusion hno
            · exact List.noConfusion hbd
            · obtain ⟨rfl, _⟩ := List.cons.inj heq
              unfold isBoundaryB at hbB
              rw [hend, plain_not_digitHeader hplain] at hbB
              exact absurd hbB (by decide)
      · -- header head line: l = headerLine c
        subst hline
        rw [parse_go_cons_header hcls] at hp
        set k := trackKey c with hkdef
        set chunk := rest.takeWhile (fun x => !isBoundaryB x) with hchunkdef
        set rest2 := rest.dropWhile (fun x => !isBoundaryB x) with hrest2def
        have hsplit : chunk ++ rest2 = rest := List.takeWhile_append_dropWhile _ _
        have hchunk : ∀ x ∈ chunk, isBoundaryB x = false ∧ BenignLine x := by
          intro x hx
          constructor
          · have h2 := List.mem_takeWhile_imp hx
            cases h3 : isBoundaryB x with
            | false => rfl
            | true => rw [h3] at h2; exact absurd h2 (by decide)
          · exact hbr x ((List.takeWhile_sublist _).subset hx)
        have hacc : tmLookup acc k = some [] :=
          hhd c hcd (List.mem_cons_self _ _)
        rw [← hsplit] at hp
        rw [parse_go_chunk chunk rest2 acc hchunk (by rw [hacc]; rfl)] at hp
        set acc2 := tmAppendAll acc k chunk with hacc2def
        have hacc2 : tmLookup acc2 k = some chunk := by
          have h2 := tmLookup_tmAppendAll_same k chunk acc [] hacc
          simpa using h2
        have hk2 : StandardKeys acc2 := StandardKeys_tmAppendAll chunk acc hk
        have hnotin : headerLine c ∉ rest := count_cons_head_le_one hu hcd
        have hhd2 : ∀ c3 ∈ trackDigits, headerLine c3 ∈ rest →
            tmLookup acc2 (trackKey c3) = some [] := by
          intro c3 hc3 hmem
          by_cases hcc : c3 = c
          · subst hcc
            exact absurd hmem hnotin
          · rw [hacc2def, tmLookup_tmAppendAll_other
              (fun h2 => hcc (trackKey_inj h2))]
            exact hhd c3 hc3 (List.mem_cons_of_mem _ hmem)
        cases hrest2 : rest2 with
        | nil =>
          rw [hrest2] at hp
          have hT : T = acc2 := (Except.ok.inj hp).symm
          have hbufT : tmLookup T k = some chunk := by rw [hT]; exact hacc2
          have hchr : chunk = rest := by
            rw [← hsplit, hrest2, List.append_nil]
          rw [write_go_cons_header hcls hbufT]
          have hwrest : write_go T true rest = .ok [] := by
            have h2 : write_go T true (chunk ++ []) = write_go T true [] :=
              write_go_skip T chunk [] hchunk
            rw [List.append_nil] at h2
            rw [← hchr]
            exact h2
          rw [hwrest]
          show Except.ok (headerLine c :: (chunk ++ [])) = _
          rw [List.append_nil, hchr]
        | cons b rest3 =>
          have hrest_eq : rest = chunk ++ b :: rest3 := by
            rw [← hsplit, hrest2]
          have hbB : isBoundaryB b = true := by
            have h2 := dropWhile_head_not (fun x => !isBoundaryB x) rest b rest3
              (by rw [← hrest2def, hrest2])
            simpa using h2
          have hbmem : b ∈ rest := by
            rw [hrest_eq]
            exact List.mem_append_right _ (List.mem_cons_self _ _)
          have hbb : BenignLine b := hbr b hbmem
          have hsub23 : (b :: rest3).Sublist rest := by
            rw [hrest2def] at hrest2
            rw [← hrest2]
            exact List.dropWhile_sublist _
          have hsub3 : rest3.Sublist rest :=
            (List.sublist_cons_self b rest3).trans hsub23
          have hlenr : rest.length ≤ n := by
            have h2 : (headerLine c :: rest).length = rest.length + 1 := rfl
            omega
          have hlen3 : rest3.length < rest.length := by
            have h2 := hsub23.length_le
            simp only [List.length_cons] at h2
            omega
          have hhd3 : ∀ c3 ∈ trackDigits, headerLine c3 ∈ b :: rest3 →
              tmLookup acc2 (trackKey c3) = some [] :=
            fun c3 hc3 hmem => hhd2 c3 hc3 (hsub23.subset hmem)
          rw [hrest2] at hp
          rcases Bool.or_eq_true_iff.mp (by rw [← hbB]; rfl :
              ("#END".data.isPrefixOf b || isDigitHeaderB b) = true) with hEnd | hDH
          · -- boundary is an #END line
            have hbcls : lineClass b = .ok .plain := end_prefix_lineClass hEnd
            rw [parse_go_cons_end hbcls hEnd] at hp
            have hwrite3 : write_go T false rest3 = .ok rest3 := by
              refine ih rest3 (by omega) acc2 none T hk2
                (fun c3 hc3 hm => hhd3 c3 hc3 (List.mem_cons_of_mem b hm))
                (uniq_sublist (hsub3.trans (List.sublist_cons_self _ _)) hu)
                (fun x hx => hbr x (hsub3.subset hx)) (Or.inl rfl) hp
            have hbufT : tmLookup T k = some chunk := by
              rw [parse_go_lookup_preserve rest3 acc2 none T hp (by simp)
                (fun c3 hc3 hck hm => by
                  have hcc : c3 = c := trackKey_inj hck
                  subst hcc
                  exact hnotin (hsub3.subset hm))
                (fun x hx => hbr x (hsub3.subset hx))]
              exact hacc2
            rw [write_go_cons_header hcls hbufT]
            have hwrest : write_go T true rest = .ok (b :: rest3) := by
              rw [hrest_eq, write_go_skip T chunk (b :: rest3) hchunk]
              rw [write_go_cons_end hbcls hEnd, hwrite3]
              rfl
            rw [hwrest]
            show Except.ok (headerLine c :: (chunk ++ (b :: rest3))) = _
            rw [← hrest_eq]
          · -- boundary is another digit header
            obtain ⟨c2, hc2d, rfl⟩ := benign_digitHeader hbb hDH
            have hc2c : c2 ≠ c := by
              intro h2
              subst h2
              exact hnotin hbmem
            have hb2cls : lineClass (headerLine c2) = .ok (.header (trackKey c2)) :=
              benign_header_class hc2d
            have hwrite23 : write_go T true (headerLine c2 :: rest3) =
                .ok (headerLine c2 :: rest3) := by
              have h2 := ih (headerLine c2 :: rest3) (by simp; omega) acc2
                (some k) T hk2 hhd3
                (uniq_sublist (hsub23.trans (List.sublist_cons_self _ _)) hu)
                (fun x hx => hbr x (hsub23.subset hx))
                (Or.inr ⟨c, hcd, rfl, Or.inr ⟨headerLine c2, rest3, rfl, hbB⟩⟩) hp
              exact h2
            have hbufT : tmLookup T k = some chunk := by
              have hp2 := hp
              rw [parse_go_cons_header hb2cls] at hp2
              rw [parse_go_lookup_preserve rest3 acc2 (some (trackKey c2)) T hp2
                (fun t2 ht2 h2 => hc2c (trackKey_inj
                  ((Option.some.inj ht2) ▸ h2)))
                (fun c3 hc3 hck hm => by
                  have hcc : c3 = c := trackKey_inj hck
                  subst hcc
                  exact hnotin (hsub3.subset hm))
                (fun x hx => hbr x (hsub3.subset hx))]
              exact hacc2
            rw [write_go_cons_header hcls hbufT]
            have hwrest : write_go T true rest = .ok (headerLine c2 :: rest3) := by
              rw [hrest_eq, write_go_skip T chunk (headerLine c2 :: rest3) hchunk]
              exact hwrite23
            rw [hwrest]
            show Except.ok (headerLine c :: (chunk ++ (headerLine c2 :: rest3))) = _
            rw [← hrest_eq]

lemma except_map_ok_inv {ε α β : Type} {x : Except ε α} {f : α → β} {y : β}
    (h : x.map f = .ok y) : ∃ z, x = .ok z ∧ y = f z := by
  cases x with
  | error e => exact absurd h (by simp [Except.map])
  | ok a => exact ⟨a, rfl, (Except.ok.inj h).symm⟩

lemma write_go_cons_header_err {line : Line} {k : Line}
    (h : lineClass line = .ok (.header k)) {td : TrackMap}
    (h3 : tmLookup td k = none) (inTrack : Bool) (rest : List Line) :
    write_go td inTrack (line :: rest) = .error .keyError := by
  rw [write_go_cons, h]
  show (match tmLookup td k with
    | none => Except.error PyErr.keyError
    | some buf => (write_go td true rest).map fun out => line :: (buf ++ out)) = _
  rw [h3]

lemma parse_go_safe :
    ∀ (lines : List Line) (acc : TrackMap) (cur : Option Line) (T : TrackMap),
      parse_go acc cur lines = .ok T →
      (∀ l ∈ lines, BenignLine l) →
      (∀ k buf, tmLookup acc k = some buf → ∀ x ∈ buf, isBoundaryB x = false) →
      ∀ k buf, tmLookup T k = some buf → ∀ x ∈ buf, isBoundaryB x = false := by
  intro lines
  induction lines with
  | nil =>
    intro acc cur T hp _ hsafe
    have h2 : acc = T := Except.ok.inj hp
    exact h2 ▸ hsafe
  | cons l rest ih =>
    intro acc cur T hp hb hsafe
    have hbl := hb l (List.mem_cons_self l rest)
    have hbr : ∀ x ∈ rest, BenignLine x := fun x hx => hb x (List.mem_cons_of_mem l hx)
    rcases benign_lineClass hbl with hplain | ⟨c, hcd, hline, hcls⟩
    · by_cases hend : "#END".data.isPrefixOf l = true
      · rw [parse_go_cons_end hplain hend] at hp
        exact ih acc none T hp hbr hsafe
      · rw [Bool.not_eq_true] at hend
        cases cur with
        | none =>
          rw [parse_go_cons_skip hplain hend] at hp
          exact ih acc none T hp hbr hsafe
        | some t =>
          cases hlk : tmLookup acc t with
          | none =>
            rw [parse_go_cons_collect_err hplain hend hlk] at hp
            exact absurd hp (by simp)
          | some buf =>
            rw [parse_go_cons_collect hplain hend hlk] at hp
            refine ih (tmAppend acc t l) (some t) T hp hbr ?_
            intro k2 buf2 hlk2 x hx
            rw [tmLookup_tmAppend] at hlk2
            obtain ⟨buf0, hb0, hbeq⟩ := Option.map_eq_some'.mp hlk2
            subst hbeq
            by_cases hkt : k2 = t
            · rw [if_pos hkt] at hx
              rcases List.mem_append.mp hx with hx0 | hx1
              · exact hsafe k2 buf0 hb0 x hx0
              · have hxl : x = l := List.mem_singleton.mp hx1
                subst hxl
                unfold isBoundaryB
                rw [hend, plain_not_digitHeader hplain]
                rfl
            · rw [if_neg hkt] at hx
              exact hsafe k2 buf0 hb0 x hx
    · rw [parse_go_cons_header hcls] at hp
      exact ih acc (some (trackKey c)) T hp hbr hsafe

lemma eraseGo_append : ∀ (xs ys : List Line) (s : Bool),
    eraseGo s (xs ++ ys) = eraseGo s xs ++ eraseGo (eraseState s xs) ys := by
  intro xs
  induction xs with
  | nil => intro ys s; rfl
  | cons x xs ih =>
    intro ys s
    show (if eraseKeep s x then [x] else []) ++ eraseGo (eraseStep s x) (xs ++ ys) = _
    rw [ih ys (eraseStep s x)]
    show _ = ((if eraseKeep s x then [x] else []) ++ eraseGo (eraseStep s x) xs) ++
      eraseGo (eraseState (eraseStep s x) xs) ys
    rw [List.append_assoc]

lemma eraseGo_drop_safe :
    ∀ (buf xs : List Line), (∀ l ∈ buf, isBoundaryB l = false) →
      eraseGo true (buf ++ xs) = eraseGo true xs := by
  intro buf
  induction buf with
  | nil => intro xs _; rfl
  | cons x buf ih =>
    intro xs hsafe
    have hx := hsafe x (List.mem_cons_self x buf)
    obtain ⟨hend, hdh⟩ := Bool.or_eq_false_iff.mp hx
    show (if eraseKeep true x then [x] else []) ++ eraseGo (eraseStep true x) (buf ++ xs) = _
    have hkeep : eraseKeep true x = false := by
      unfold eraseKeep
      rw [hdh, hend]
      rfl
    have hstep : eraseStep true x = true := by
      unfold eraseStep
      rw [hdh, hend]
      rfl
    rw [hkeep, hstep]
    show eraseGo true (buf ++ xs) = _
    exact ih xs (fun l hl => hsafe l (List.mem_cons_of_mem x hl))

lemma digit_playable_cases : ∀ c ∈ trackDigits,
    c = '1' ∨ c = '8' ∨ c ∈ playableDigits := by
  decide

lemma playable_sub_digits : ∀ c ∈ playableDigits, c ∈ trackDigits := by
  decide

lemma write_erase_eq :
    ∀ (lines : List Line) (tdA tdB : TrackMap) (b : Bool) (outA outB : List Line),
      write_go tdA b lines = .ok outA →
      write_go tdB b lines = .ok outB →
      (∀ l ∈ lines, BenignLine l) →
      tmLookup tdA (trackKey '1') = tmLookup tdB (trackKey '1') →
      tmLookup tdA (trackKey '8') = tmLookup tdB (trackKey '8') →
      (∀ c ∈ playableDigits, ∀ buf,
        (tmLookup tdA (trackKey c) = some buf ∨ tmLookup tdB (trackKey c) = some buf) →
        ∀ x ∈ buf, isBoundaryB x = false) →
      ∀ s, eraseGo s outA = eraseGo s outB := by
  intro lines
  induction lines with
  | nil =>
    intro tdA tdB b outA outB hA hB _ _ _ _ s
    have h1 : ([] : List Line) = outA := Except.ok.inj hA
    have h2 : ([] : List Line) = outB := Except.ok.inj hB
    rw [← h1, ← h2]
  | cons l rest ih =>
    intro tdA tdB b outA outB hA hB hb h1 h8 hsafe s
    have hbl := hb l (List.mem_cons_self l rest)
    have hbr : ∀ x ∈ rest, BenignLine x := fun x hx => hb x (List.mem_cons_of_mem l hx)
    rcases benign_lineClass hbl with hplain | ⟨c, hcd, hline, hcls⟩
    · by_cases hend : ("#END".data.isPrefixOf l && b) = true
      · rw [Bool.and_eq_true] at hend
        obtain ⟨hendp, hbtrue⟩ := hend
        subst hbtrue
        rw [write_go_cons_end hplain hendp] at hA hB
        obtain ⟨contA, hcA, rfl⟩ := except_map_ok_inv hA
        obtain ⟨contB, hcB, rfl⟩ := except_map_ok_inv hB
        show (if eraseKeep s l then [l] else []) ++ eraseGo (eraseStep s l) contA = _
        rw [ih tdA tdB false contA contB hcA hcB hbr h1 h8 hsafe (eraseStep s l)]
        rfl
      · cases b with
        | false =>
          rw [write_go_cons_emit hplain] at hA hB
          obtain ⟨contA, hcA, rfl⟩ := except_map_ok_inv hA
          obtain ⟨contB, hcB, rfl⟩ := except_map_ok_inv hB
          show (if eraseKeep s l then [l] else []) ++ eraseGo (eraseStep s l) contA = _
          rw [ih tdA tdB false contA contB hcA hcB hbr h1 h8 hsafe (eraseStep s l)]
          rfl
        | true =>
          have hendp : "#END".data.isPrefixOf l = false := by
            cases hpp : "#END".data.isPrefixOf l with
            | false => rfl
            | true => rw [hpp] at hend; exact absurd rfl hend
          rw [write_go_cons_skipline hplain hendp] at hA hB
          exact ih tdA tdB true outA outB hA hB hbr h1 h8 hsafe s
    · subst hline
      cases hlA : tmLookup tdA (trackKey c) with
      | none => rw [write_go_cons_header_err hcls hlA] at hA; exact absurd hA (by simp)
      | some bufA =>
        cases hlB : tmLookup tdB (trackKey c) with
        | none => rw [write_go_cons_header_err hcls hlB] at hB; exact absurd hB (by simp)
        | some bufB =>
          rw [write_go_cons_header hcls hlA] at hA
          rw [write_go_cons_header hcls hlB] at hB
          obtain ⟨contA, hcA, rfl⟩ := except_map_ok_inv hA
          obtain ⟨contB, hcB, rfl⟩ := except_map_ok_inv hB
          have hkeep : eraseKeep s (headerLine c) = true := by
            unfold eraseKeep
            rw [headerLine_isDigitHeader hcd]
            rfl
          have hstep : eraseStep s (headerLine c) = playableHeaderB (headerLine c) := by
            unfold eraseStep
            rw [headerLine_isDigitHeader hcd]
            rfl
          have hph : playableHeaderB (headerLine c) =
              (trackDigits.contains c && playableDigits.contains c) := rfl
          show (if eraseKeep s (headerLine c) then [headerLine c] else []) ++
              eraseGo (eraseStep s (headerLine c)) (bufA ++ contA) =
            (if eraseKeep s (headerLine c) then [headerLine c] else []) ++
              eraseGo (eraseStep s (headerLine c)) (bufB ++ contB)
          rw [hkeep, hstep, hph, contains_of_mem hcd, Bool.true_and]
          cases hcp : playableDigits.contains c with
          | true =>
            have hcpm : c ∈ playableDigits := by simpa using hcp
            rw [eraseGo_drop_safe bufA contA
              (hsafe c hcpm bufA (Or.inl hlA))]
            rw [eraseGo_drop_safe bufB contB
              (hsafe c hcpm bufB (Or.inr hlB))]
            rw [ih tdA tdB true contA contB hcA hcB hbr h1 h8 hsafe true]
          | false =>
            have hbeq : bufA = bufB := by
              rcases digit_playable_cases c hcd with h1c | h8c | hpc
              · subst h1c
                rw [h1] at hlA
                rw [hlA] at hlB
                exact Option.some.inj hlB
              · subst h8c
                rw [h8] at hlA
                rw [hlA] at hlB
                exact Option.some.inj hlB
              · rw [contains_of_mem hpc] at hcp
                exact absurd hcp (by decide)
            subst hbeq
            rw [eraseGo_append bufA contA false, eraseGo_append bufA contB false]
            rw [ih tdA tdB true contA contB hcA hcB hbr h1 h8 hsafe
              (eraseState false bufA)]

/-- **C4** (amended).  The byte-for-byte identity of the original claim is
false (see the counterexample: stripping plus unconditional `'\n'`
normalizes whitespace), but at the level of stripped lines it holds:
whenever `parse_file`'s loop accepts the stripped lines of a file whose
`#TRACK` headers are benign and pairwise distinct, `write_to_file`'s loop
on the unmodified parsed mapping `T` reproduces exactly those lines; and
for any variant mapping `td2` that keeps TRACK1/TRACK8 and assigns each
playable track some original playable buffer, the written output agrees
with the input after erasing the playable sections' contents (`eraseGo`),
i.e. it is identical outside the six permuted sections. -/
theorem c4_round_trip (lines : List Line) (T td2 : TrackMap)
    (hb : ∀ l ∈ lines, BenignLine l)
    (hu : UniqueHeaders lines)
    (hp : parse_go initTracks none lines = .ok T)
    (h1 : tmLookup td2 (trackKey '1') = tmLookup T (trackKey '1'))
    (h8 : tmLookup td2 (trackKey '8') = tmLookup T (trackKey '8'))
    (hperm : ∀ c ∈ playableDigits, ∃ c2 ∈ playableDigits,
      tmLookup td2 (trackKey c) = tmLookup T (trackKey c2)) :
    write_go T false lines = .ok lines ∧
      ∃ out, write_go td2 false lines = .ok out ∧
        ∀ s, eraseGo s out = eraseGo s lines := by
  have hinit : ∀ c ∈ trackDigits, tmLookup initTracks (trackKey c) = some [] := by
    decide
  have hinitstd : StandardKeys initTracks := by decide
  have part1 : write_go T false lines = .ok lines :=
    write_parse_round_trip lines.length lines le_rfl initTracks none T hinitstd
      (fun c hc _ => hinit c hc) hu hb (Or.inl rfl) hp
  have hbase : ∀ k buf, tmLookup initTracks k = some buf →
      ∀ x ∈ buf, isBoundaryB x = false := by
    intro k buf h x hx
    obtain ⟨p, hp2, hps⟩ := Option.map_eq_some'.mp h
    have hpm := List.mem_of_find?_eq_some hp2
    have hnil : p.2 = [] := by
      have hall : ∀ q ∈ initTracks, q.2 = ([] : List Line) := by decide
      exact hall p hpm
    rw [← hps, hnil] at hx
    exact absurd hx (List.not_mem_nil x)
  have hTsafe := parse_go_safe lines initTracks none T hp hb hbase
  have hTstd : StandardKeys T := parse_go_standard lines initTracks none T hp hb hinitstd
  have htd2std : StandardKeys td2 := by
    intro c hc
    rcases digit_playable_cases c hc with h1c | h8c | hpc
    · subst h1c
      rw [h1]
      exact hTstd '1' (by decide)
    · subst h8c
      rw [h8]
      exact hTstd '8' (by decide)
    · obtain ⟨c2, hc2, heq⟩ := hperm c hpc
      rw [heq]
      exact hTstd c2 (playable_sub_digits c2 hc2)
  obtain ⟨out, hout⟩ := write_go_success lines td2 false htd2std hb
  have hsafe2 : ∀ c ∈ playableDigits, ∀ buf,
      (tmLookup td2 (trackKey c) = some buf ∨ tmLookup T (trackKey c) = some buf) →
      ∀ x ∈ buf, isBoundaryB x = false := by
    intro c hc buf hor x hx
    rcases hor with hA | hB
    · obtain ⟨c2, hc2, heq⟩ := hperm c hc
      rw [heq] at hA
      exact hTsafe (trackKey c2) buf hA x hx
    · exact hTsafe (trackKey c) buf hB x hx
  have herase := write_erase_eq lines td2 T false out lines hout part1 hb h1 h8 hsafe2
  exact ⟨part1, out, hout, herase⟩

/-- C4 witness: the round-trip theorem applied to the concrete chart
`c4Lines`, its parse result `c4T`, and the swapped variant `c4Td2`. -/
theorem c4_round_trip_witness :
    write_go c4T false c4Lines = .ok c4Lines ∧
      ∃ out, write_go c4Td2 false c4Lines = .ok out ∧
        ∀ s, eraseGo s out = eraseGo s c4Lines :=
  c4_round_trip c4Lines c4T c4Td2 (by decide) (by decide) (by decide)
    (by decide) (by decide) (by decide)

/-- C4 counterexample to the literal claim: the file whose bytes are
`"A \n"` parses fine, and the identity rewrite succeeds, but the written
bytes are `"A\n"` — the trailing space is stripped, so the round trip is
not byte-for-byte. -/
theorem c4_byte_identity_counterexample :
    writeIdentityBytes "A \n".data = .ok "A\n".data ∧
      "A\n".data ≠ "A \n".data := by
  constructor
  · decide
  · decide
